import Mathlib

/-!
Verification of the cargo container packing engine (`optimizer.py`).

The engine is shallowly embedded: Python floats are modelled as exact
rationals (`ℚ`), mutable objects become records updated by explicit state
passing, and the global pseudo-random stream used by the Monte-Carlo
strategy is abstracted as an oracle `shuf : Nat → List Item → List Item`
(theorems that need it assume the oracle only permutes its input).
`calculate_balance_score` in the source returns either a bare number
(when the container weight is zero) or a pair; this is modelled with a sum
type, and the caller that unconditionally unpacks a pair propagates the
zero-weight case as an exception (`Except`), exactly as Python raises a
`TypeError` there.
-/

namespace Packing

/-- Floating point tolerance, `EPSILON = 1.0` in the source. -/
def EPSILON : ℚ := 1

/-- An item: fixed geometry and weight, plus the mutable packing state
(position and rotation flag) that the engine assigns.  The visualization
colour is omitted (it has no packing semantics). -/
structure Item where
  name : String
  l : ℚ
  w : ℚ
  h : ℚ
  weight : ℚ
  x : ℚ := 0
  y : ℚ := 0
  z : ℚ := 0
  rotation : Nat := 0
deriving DecidableEq, Repr

/-- `Item.vol`, computed from the as-given extents. -/
def Item.vol (i : Item) : ℚ := i.l * i.w * i.h

/-- `Item.base_area`, the floor footprint from the as-given extents. -/
def Item.base_area (i : Item) : ℚ := i.l * i.w

/-- `Item.get_dimension`: effective (length, width, height) after rotation. -/
def Item.get_dimension (i : Item) : ℚ × ℚ × ℚ :=
  if i.rotation = 1 then (i.w, i.l, i.h) else (i.l, i.w, i.h)

/-- The container: dimensions, weight capacity, running weight, the placed
items in placement order, and the items that could not be placed. -/
structure Container where
  L : ℚ
  W : ℚ
  H : ℚ
  max_weight : ℚ
  current_weight : ℚ := 0
  items : List Item := []
  unpacked_items : List Item := []
deriving DecidableEq, Repr

/-- The two horizontal axis priorities (`'x'` and `'y'` in the source). -/
inductive Axis where
  | x
  | y
deriving DecidableEq, Repr

/-- A candidate anchor position. -/
abbrev Anchor := ℚ × ℚ × ℚ

/-- The ranking key `(z, primary, secondary, gap)` attached to an anchor. -/
abbrev SortKey := ℚ × ℚ × ℚ × ℚ

/-- Lexicographic `≤` on a pair whose first component lives in a linear
order; used to build the tuple orders of the Python `sort` calls. -/
def lexLe {α β : Type} [LinearOrder α] (le : β → β → Prop) (a b : α × β) : Prop :=
  a.1 < b.1 ∨ (a.1 = b.1 ∧ le a.2 b.2)

instance lexLeDec {α β : Type} [LinearOrder α] (le : β → β → Prop) [DecidableRel le] :
    DecidableRel (fun a b : α × β => lexLe le a b) := by
  intro a b
  unfold lexLe
  infer_instance

theorem lexLe_total {α β : Type} [LinearOrder α] (le : β → β → Prop)
    (h : ∀ a b, le a b ∨ le b a) : ∀ a b : α × β, lexLe le a b ∨ lexLe le b a := by
  intro a b
  rcases lt_trichotomy a.1 b.1 with hlt | heq | hgt
  · exact Or.inl (Or.inl hlt)
  · rcases h a.2 b.2 with h2 | h2
    · exact Or.inl (Or.inr ⟨heq, h2⟩)
    · exact Or.inr (Or.inr ⟨heq.symm, h2⟩)
  · exact Or.inr (Or.inl hgt)

theorem lexLe_trans {α β : Type} [LinearOrder α] (le : β → β → Prop)
    (h : ∀ a b c, le a b → le b c → le a c) :
    ∀ a b c : α × β, lexLe le a b → lexLe le b c → lexLe le a c := by
  intro a b c hab hbc
  rcases hab with h1 | ⟨e1, h1⟩
  · rcases hbc with h2 | ⟨e2, h2⟩
    · exact Or.inl (h1.trans h2)
    · exact Or.inl (e2 ▸ h1)
  · rcases hbc with h2 | ⟨e2, h2⟩
    · exact Or.inl (e1 ▸ h2)
    · exact Or.inr ⟨e1.trans e2, h a.2 b.2 c.2 h1 h2⟩

/-- Lexicographic `≤` on the 4-tuple sort keys. -/
def keyLe : SortKey → SortKey → Prop :=
  lexLe (lexLe (lexLe (· ≤ ·)))

instance : DecidableRel keyLe := fun a b => by
  unfold keyLe lexLe
  infer_instance

theorem keyLe_total : ∀ a b : SortKey, keyLe a b ∨ keyLe b a := by
  refine lexLe_total _ (lexLe_total _ (lexLe_total _ ?_))
  exact fun a b => le_total a b

theorem keyLe_trans : ∀ a b c : SortKey, keyLe a b → keyLe b c → keyLe a c := by
  refine lexLe_trans _ (lexLe_trans _ (lexLe_trans _ ?_))
  exact fun a b c => le_trans

/-- An entry of the `valid_anchors` list: `(sort_key, (x, y, z), gap_metric)`. -/
abbrev AnchorEntry := SortKey × Anchor × ℚ

/-- Ordering of `valid_anchors` entries by their sort key. -/
def anchorRel (a b : AnchorEntry) : Prop := keyLe a.1 b.1

instance : DecidableRel anchorRel := fun a b => inferInstanceAs (Decidable (keyLe a.1 b.1))

instance : IsTotal AnchorEntry anchorRel := ⟨fun a b => keyLe_total a.1 b.1⟩

instance : IsTrans AnchorEntry anchorRel := ⟨fun a b c => keyLe_trans a.1 b.1 c.1⟩

/-- The unique x coordinates that seed anchor generation:
`{0, L, start_x_limit}` plus the x-extents of every placed item. -/
def Container.xCandidates (c : Container) (start_x_limit : ℚ) : List ℚ :=
  ([0, c.L, start_x_limit] ++
    c.items.flatMap (fun p => [p.x, p.x + p.get_dimension.1])).dedup

/-- The unique y coordinates: `{0, W}` plus y-extents of placed items. -/
def Container.yCandidates (c : Container) : List ℚ :=
  ([0, c.W] ++ c.items.flatMap (fun p => [p.y, p.y + p.get_dimension.2.1])).dedup

/-- The 3-axis collision test with `EPSILON` slack, between a box of
effective dims `(il, iw, ih)` at `(x, y, z)` and a placed item `o`. -/
def collides (x y z il iw ih : ℚ) (o : Item) : Prop :=
  x < o.x + o.get_dimension.1 - EPSILON ∧ x + il > o.x + EPSILON ∧
  y < o.y + o.get_dimension.2.1 - EPSILON ∧ y + iw > o.y + EPSILON ∧
  z < o.z + o.get_dimension.2.2 - EPSILON ∧ z + ih > o.z + EPSILON

instance (x y z il iw ih : ℚ) (o : Item) : Decidable (collides x y z il iw ih o) := by
  unfold collides
  infer_instance

/-- The deduplicated `anchor_points` set: all candidate `(x, y, z)` triples
that pass the filter on x and the in-bounds checks.  `z` candidates are
always `{0}` (strict no stacking). -/
def Container.anchorPoints (c : Container) (il iw ih s e : ℚ) : List Anchor :=
  (((c.xCandidates s).filter
      (fun x => decide (¬(x < s - EPSILON ∨ x > (e - il) + EPSILON)))).flatMap (fun x =>
    c.yCandidates.flatMap (fun y =>
      ([0] : List ℚ).flatMap (fun z =>
        if x + il ≤ e + EPSILON ∧ y + iw ≤ c.W + EPSILON ∧ z + ih ≤ c.H + EPSILON then
          [(x, y, z)]
        else [])))).dedup

/-- The sort key of an anchor: `(z, x, y, gap)` or `(z, y, x, gap)`. -/
def mkSortKey (ap : Axis) (x y z gap : ℚ) : SortKey :=
  match ap with
  | .x => (z, x, y, gap)
  | .y => (z, y, x, gap)

/-- `Container.get_all_valid_anchors`: every collision-free anchor together
with its ranking key and gap metric, best key first.  The Python version
collects the anchors from a set and sorts them by key; since distinct
anchors have distinct keys the sorted list is canonical. -/
def Container.get_all_valid_anchors (c : Container) (item : Item)
    (start_x_limit : ℚ := 0) (end_x_limit : Option ℚ := none) (ap : Axis := .x) :
    List AnchorEntry :=
  let e := end_x_limit.getD c.L
  let il := item.get_dimension.1
  let iw := item.get_dimension.2.1
  let ih := item.get_dimension.2.2
  let va := (c.anchorPoints il iw ih start_x_limit e).filterMap (fun a =>
    if c.items.any (fun o => decide (collides a.1 a.2.1 a.2.2 il iw ih o)) then none
    else
      let gap := (e - (a.1 + il)) + (c.W - (a.2.1 + iw))
      some (mkSortKey ap a.1 a.2.1 a.2.2 gap, a, gap))
  va.insertionSort anchorRel

/-- `Container.find_best_fit`: the best anchor and its gap, if any
(Python returns `(None, inf)` when there is none). -/
def Container.find_best_fit (c : Container) (item : Item)
    (start_x_limit : ℚ := 0) (end_x_limit : Option ℚ := none) (ap : Axis := .x) :
    Option (Anchor × ℚ) :=
  match c.get_all_valid_anchors item start_x_limit end_x_limit ap with
  | [] => none
  | a :: _ => some (a.2.1, a.2.2)

/-- `calculate_balance_score`.  When the container weight is zero the
Python function returns the bare float `50.0` instead of a pair; this is
the `Sum.inl` case (its caller in `solve_packing` unpacks a pair and
raises a `TypeError` on it). -/
def calculate_balance_score (c : Container) : ℚ ⊕ (ℚ × ℚ) :=
  if c.current_weight = 0 then Sum.inl 50
  else
    let mid_point := c.L / 2
    let weight_nose := (c.items.map (fun item =>
      let item_mid := item.x + item.get_dimension.1 / 2
      if item_mid < mid_point then item.weight
      else if item_mid = mid_point then item.weight * (1 / 2)
      else 0)).sum
    let balance_ratio := weight_nose / c.current_weight * 100
    Sum.inr (|50 - balance_ratio|, balance_ratio)

/-- Strict lexicographic `<` on a pair whose first component lives in a
linear order (Python tuple `<`). -/
def lexLt {α β : Type} [LinearOrder α] (lt : β → β → Prop) (a b : α × β) : Prop :=
  a.1 < b.1 ∨ (a.1 = b.1 ∧ lt a.2 b.2)

instance lexLtDec {α β : Type} [LinearOrder α] (lt : β → β → Prop) [DecidableRel lt] :
    DecidableRel (fun a b : α × β => lexLt lt a b) := by
  intro a b
  unfold lexLt
  infer_instance

/-- Strict lexicographic `<` on coordinate triples, the Python comparison
`best_anchor[1] < best_move_for_this_item[1]` of raw `(x, y, z)` tuples. -/
def coordLt : Anchor → Anchor → Prop :=
  lexLt (lexLt (· < ·))

instance : DecidableRel coordLt := fun a b => by
  unfold coordLt lexLt
  infer_instance

/-- A fresh unplaced working copy, `Item(i.name, i.l, i.w, i.h, i.weight)`. -/
def copyItem (i : Item) : Item :=
  { name := i.name, l := i.l, w := i.w, h := i.h, weight := i.weight }

/-- Commit a placement: set rotation and position on the pool item, append
it to the placed list and add its weight. -/
def Container.place (c : Container) (item0 : Item) (rot : Nat) (a : Anchor) : Container :=
  let winner := { item0 with rotation := rot, x := a.1, y := a.2.1, z := a.2.2 }
  { c with items := c.items ++ [winner], current_weight := c.current_weight + winner.weight }

/-- Deposit a batch of items into `unpacked_items`. -/
def Container.dump (c : Container) (pool : List Item) : Container :=
  { c with unpacked_items := c.unpacked_items ++ pool }

/-- `enumerate(items_pool)` with a starting index. -/
def enumFrom {α : Type} (n : Nat) : List α → List (Nat × α)
  | [] => []
  | a :: l => (n, a) :: enumFrom (n + 1) l

/-- Python `enumerate`. -/
def enumerate {α : Type} (l : List α) : List (Nat × α) := enumFrom 0 l

/-- The tuple built for one weight-eligible pool item in a scarcity round:
`(total_valid_spots, -base_area, idx, rot, x, y, z)` (line 193). -/
structure ScoreEntry where
  spots : Nat
  negArea : ℚ
  idx : Nat
  rot : Nat
  ax : ℚ
  ay : ℚ
  az : ℚ
deriving DecidableEq, Repr

/-- Lines 176-188: run both rotations, total the anchor counts, and keep
the head anchor of the rotation whose raw coordinates compare smaller
(rotation 0 is kept on ties). -/
def bestMoveFor (c : Container) (item : Item) (ap : Axis) : Nat × Option (Nat × Anchor) :=
  let a0 := c.get_all_valid_anchors { item with rotation := 0 } 0 none ap
  let a1 := c.get_all_valid_anchors { item with rotation := 1 } 0 none ap
  let total := a0.length + a1.length
  let bm : Option (Nat × Anchor) :=
    match a0.head?, a1.head? with
    | some e0, some e1 =>
      if coordLt e1.2.1 e0.2.1 then some (1, e1.2.1) else some (0, e0.2.1)
    | some e0, none => some (0, e0.2.1)
    | none, some e1 => some (1, e1.2.1)
    | none, none => none
  (total, bm)

/-- One pass of lines 169-193 building `scarcity_scores`. -/
def scarcityScores (c : Container) (pool : List Item) (ap : Axis) : List ScoreEntry :=
  (enumerate pool).filterMap (fun p =>
    if c.current_weight + p.2.weight > c.max_weight then none
    else
      match bestMoveFor c p.2 ap with
      | (total, some (r, a)) =>
        if total > 0 then some ⟨total, -p.2.base_area, p.1, r, a.1, a.2.1, a.2.2⟩ else none
      | (_, none) => none)

/-- The scarcity sort order.  Python stably sorts by `(spots, -area)`
(line 200); since the entries are built with strictly increasing `idx`,
that equals sorting by the key extended with `idx`. -/
def entryRel (a b : ScoreEntry) : Prop :=
  lexLe (lexLe (· ≤ ·)) (a.spots, a.negArea, a.idx) (b.spots, b.negArea, b.idx)

instance : DecidableRel entryRel := fun a b => by
  unfold entryRel lexLe
  infer_instance

instance : IsTotal ScoreEntry entryRel := ⟨by
  intro a b
  unfold entryRel
  exact lexLe_total _ (lexLe_total _ (fun x y => le_total x y)) _ _⟩

instance : IsTrans ScoreEntry entryRel := ⟨by
  intro a b c
  unfold entryRel
  exact lexLe_trans (lexLe (fun x y : Nat => x ≤ y) : (ℚ × Nat) → (ℚ × Nat) → Prop)
    (lexLe_trans (fun x y : Nat => x ≤ y) (fun x y z h1 h2 => le_trans h1 h2)) _ _ _⟩

/-- The Global Scarcity Fit pass (lines 163-207).  `fuel` starts at the
pool size; every round either places exactly one item (the pool shrinks by
one) or deposits the whole remaining pool into `unpacked_items` and stops,
so the fuel never runs out before the pool empties. -/
def scarcityLoop (ap : Axis) : Nat → Container → List Item → Container
  | _, c, [] => c
  | 0, c, pool => c.dump pool
  | fuel + 1, c, pool =>
    match (scarcityScores c pool ap).insertionSort entryRel with
    | [] => c.dump pool
    | e :: _ =>
      match pool.get? e.idx with
      | none => c.dump pool
      | some item0 =>
        scarcityLoop ap fuel (c.place item0 e.rot (e.ax, e.ay, e.az)) (pool.eraseIdx e.idx)

/-- The spot-centric metric `(pos1, pos2, pos3, gap, -base_area)`. -/
abbrev SpotMetric := ℚ × ℚ × ℚ × ℚ × ℚ

/-- Strict tuple `<` on spot metrics. -/
def spotMetricLt : SpotMetric → SpotMetric → Prop :=
  lexLt (lexLt (lexLt (lexLt (· < ·))))

instance : DecidableRel spotMetricLt := fun a b => by
  unfold spotMetricLt lexLt
  infer_instance

/-- `(z, x, y)` or `(z, y, x)` position score of an anchor (lines 235-236). -/
def spotPosScore (ap : Axis) (a : Anchor) : ℚ × ℚ × ℚ :=
  match ap with
  | .x => (a.2.2, a.1, a.2.1)
  | .y => (a.2.2, a.2.1, a.1)

/-- A candidate global move: its metric and `(idx, rot, anchor)`. -/
abbrev SpotMove := SpotMetric × (Nat × Nat × Anchor)

/-- Replace the running best move when the new metric is strictly smaller
(the Python best starts at `(inf, inf, inf, inf, inf)`, modelled as
`none`). -/
def spotConsider (best : Option SpotMove) (m : SpotMetric) (mv : Nat × Nat × Anchor) :
    Option SpotMove :=
  match best with
  | none => some (m, mv)
  | some b => if spotMetricLt m b.1 then some (m, mv) else some b

/-- Try one rotation of one item in the spot-centric scan (lines 229-243). -/
def spotTryRot (c : Container) (ap : Axis) (idx : Nat) (item : Item) (rot : Nat)
    (best : Option SpotMove) : Option SpotMove :=
  match c.find_best_fit { item with rotation := rot } 0 none ap with
  | none => best
  | some (a, gap) =>
    let ps := spotPosScore ap a
    spotConsider best (ps.1, ps.2.1, ps.2.2, gap, -item.base_area) (idx, rot, a)

/-- The full scan over the enumerated pool (lines 226-243). -/
def spotScan (c : Container) (ap : Axis) : List (Nat × Item) → Option SpotMove → Option SpotMove
  | [], best => best
  | (idx, item) :: rest, best =>
    if c.current_weight + item.weight > c.max_weight then spotScan c ap rest best
    else spotScan c ap rest (spotTryRot c ap idx item 1 (spotTryRot c ap idx item 0 best))

/-- The Spot Centric Fit pass (lines 209-254), with fuel as in
`scarcityLoop`. -/
def spotLoop (ap : Axis) : Nat → Container → List Item → Container
  | _, c, [] => c
  | 0, c, pool => c.dump pool
  | fuel + 1, c, pool =>
    match spotScan c ap (enumerate pool) none with
    | none => c.dump pool
    | some (_, idx, rot, a) =>
      match pool.get? idx with
      | none => c.dump pool
      | some item0 => spotLoop ap fuel (c.place item0 rot a) (pool.eraseIdx idx)

/-- The Monte-Carlo rotation comparison (lines 295-307): strictly smaller
`z`, then the axis-priority coordinate order. -/
def mcBetter : Axis → Anchor → Anchor → Prop
  | .x, a, b =>
    a.2.2 < b.2.2 ∨ (a.2.2 = b.2.2 ∧ (a.1 < b.1 ∨ (a.1 = b.1 ∧ a.2.1 < b.2.1)))
  | .y, a, b =>
    a.2.2 < b.2.2 ∨ (a.2.2 = b.2.2 ∧ (a.2.1 < b.2.1 ∨ (a.2.1 = b.2.1 ∧ a.1 < b.1)))

instance (ap : Axis) (a b : Anchor) : Decidable (mcBetter ap a b) := by
  cases ap <;> (unfold mcBetter; infer_instance)

/-- Best of the two rotations for a Monte-Carlo item (lines 289-307):
rotation 0 is tried first and kept unless rotation 1 is strictly better. -/
def mcBestFit (c : Container) (item : Item) (ap : Axis) : Option (Anchor × Nat) :=
  let f0 := c.find_best_fit { item with rotation := 0 } 0 none ap
  let f1 := c.find_best_fit { item with rotation := 1 } 0 none ap
  match f0, f1 with
  | none, none => none
  | some (a0, _), none => some (a0, 0)
  | none, some (a1, _) => some (a1, 1)
  | some (a0, _), some (a1, _) =>
    if mcBetter ap a1 a0 then some (a1, 1) else some (a0, 0)

/-- The Monte-Carlo greedy placement loop (lines 284-315). -/
def mcPlace (ap : Axis) : Container → List Item → Container
  | c, [] => c
  | c, item :: rest =>
    if c.current_weight + item.weight > c.max_weight then
      mcPlace ap { c with unpacked_items := c.unpacked_items ++ [item] } rest
    else
      match mcBestFit c item ap with
      | some (a, rot) => mcPlace ap (c.place item rot a) rest
      | none => mcPlace ap { c with unpacked_items := c.unpacked_items ++ [item] } rest

/-- Sort keys of the Monte-Carlo ordering modes. -/
def areaDesc (a b : Item) : Prop := b.base_area ≤ a.base_area

/-- Sort by length descending. -/
def lenDesc (a b : Item) : Prop := b.l ≤ a.l

/-- Sort by width descending. -/
def widDesc (a b : Item) : Prop := b.w ≤ a.w

/-- Sort by footprint area ascending. -/
def areaAsc (a b : Item) : Prop := a.base_area ≤ b.base_area

instance : DecidableRel areaDesc := fun a b => by unfold areaDesc; infer_instance

instance : DecidableRel lenDesc := fun a b => by unfold lenDesc; infer_instance

instance : DecidableRel widDesc := fun a b => by unfold widDesc; infer_instance

instance : DecidableRel areaAsc := fun a b => by unfold areaAsc; infer_instance

/-- The six Monte-Carlo ordering modes, cycled by iteration index
(lines 261-282).  Every use of the global PRNG — `random.shuffle` and the
random index swaps of `_apply_swaps` — is abstracted as the oracle
`shuf i`; theorems that depend on it assume the oracle permutes its
argument. -/
def mcOrder (shuf : Nat → List Item → List Item) (i : Nat) (pool : List Item) : List Item :=
  match i % 6 with
  | 0 => shuf i pool
  | 1 => shuf i (pool.insertionSort areaDesc)
  | 2 => shuf i (pool.insertionSort lenDesc)
  | 3 => shuf i (pool.insertionSort widDesc)
  | 4 =>
    let sorted := pool.insertionSort areaDesc
    let split := sorted.length / 3
    sorted.take split ++ shuf i (sorted.drop split)
  | _ => shuf i (pool.insertionSort areaAsc)

/-- The three placement strategies. -/
inductive Strat where
  | scarcity
  | spot
  | monteCarlo
deriving DecidableEq, Repr

/-- Iteration count per strategy: 1, except `n_simulations` for
Monte-Carlo. -/
def stratIterations (nsim : Nat) : Strat → Nat
  | .monteCarlo => nsim
  | _ => 1

/-- The 0.5 scoring bonus of the two deterministic strategies (line 323). -/
def stratBonus : Strat → ℚ
  | .monteCarlo => 0
  | _ => 1 / 2

/-- One input row of `items_data`. -/
structure ItemData where
  name : String
  l : ℚ
  w : ℚ
  h : ℚ
  weight : ℚ
  qty : Nat
deriving DecidableEq, Repr

/-- Quantity expansion (lines 136-139): each row becomes `qty` fresh item
instances. -/
def expandItems (ds : List ItemData) : List Item :=
  ds.flatMap (fun d => List.replicate d.qty { name := d.name, l := d.l, w := d.w, h := d.h, weight := d.weight })

/-- Build one trial: a fresh container and one full strategy pass over a
fresh copy of the item pool. -/
def runTrial (cl cw ch mw : ℚ) (base : List Item) (shuf : Nat → List Item → List Item)
    (s : Strat) (i : Nat) (ap : Axis) : Container :=
  let trial : Container := { L := cl, W := cw, H := ch, max_weight := mw }
  match s with
  | .scarcity => scarcityLoop ap base.length trial (base.map copyItem)
  | .spot => spotLoop ap base.length trial (base.map copyItem)
  | .monteCarlo => mcPlace ap trial (mcOrder shuf i (base.map copyItem))

/-- The running best: `best_container`, `best_item_count`,
`best_utilization`, `best_balance_diff`. -/
structure BestState where
  best : Container
  count : ℤ
  util : ℚ
  balance : ℚ
deriving DecidableEq, Repr

/-- Total placed volume of a trial. -/
def packedVol (c : Container) : ℚ := (c.items.map Item.vol).sum

/-- Lines 330-345: compare a finished trial against the current best. -/
def compareTrial (b : BestState) (t : Container) (balance_diff bonus : ℚ) : BestState :=
  let packed_count : ℤ := t.items.length
  let packed_vol := packedVol t
  if packed_count > b.count then
    ⟨t, packed_count, packed_vol, balance_diff - bonus⟩
  else if packed_count = b.count then
    if packed_vol > b.util + 1 / 100000 then
      ⟨t, b.count, packed_vol, balance_diff - bonus⟩
    else if |packed_vol - b.util| < 1 / 100000 then
      if balance_diff - bonus < b.balance then ⟨t, b.count, b.util, balance_diff - bonus⟩
      else b
    else b
  else b

/-- Score one trial (lines 317-345).  `balance_diff, _ = ...` unpacks the
result of `calculate_balance_score`; when that returned the bare float
(zero placed weight) Python raises a `TypeError`, the `.error` case. -/
def scoreTrial (acc : Option BestState) (t : Container) (bonus : ℚ) :
    Except Unit (Option BestState) :=
  match calculate_balance_score t with
  | .inl _ => .error ()
  | .inr pr =>
    .ok (some (match acc with
      | none => ⟨t, (t.items.length : ℤ), packedVol t, pr.1 - bonus⟩
      | some b => compareTrial b t pr.1 bonus))

/-- The trial schedule: for each strategy, its iterations, and within each
iteration both axis priorities. -/
def trialSched (nsim : Nat) : List (Strat × Nat × Axis) :=
  [Strat.scarcity, Strat.spot, Strat.monteCarlo].flatMap (fun s =>
    (List.range (stratIterations nsim s)).flatMap (fun i => [(s, i, Axis.x), (s, i, Axis.y)]))

/-- Run and score the scheduled trials in order, propagating the
`TypeError` of `scoreTrial`. -/
def runTrials (cl cw ch mw : ℚ) (base : List Item) (shuf : Nat → List Item → List Item) :
    List (Strat × Nat × Axis) → Option BestState → Except Unit (Option BestState)
  | [], acc => .ok acc
  | t :: rest, acc =>
    match scoreTrial acc (runTrial cl cw ch mw base shuf t.1 t.2.1 t.2.2) (stratBonus t.1) with
    | .error e => .error e
    | .ok acc2 => runTrials cl cw ch mw base shuf rest acc2

/-- `solve_packing` (lines 134-347): expand quantities, run every
scheduled trial, and return the best container (`none` would mean no trial
ran; the schedule is never empty).  A `.error` result is the `TypeError`
raised while scoring a trial that placed zero weight. -/
def solve_packing (container_l container_w container_h : ℚ) (items_data : List ItemData)
    (max_weight_kg : ℚ := 20000) (balance_weight : Bool := false)
    (n_simulations : Nat := 10000)
    (shuf : Nat → List Item → List Item := fun _ l => l) :
    Except Unit (Option Container) :=
  let base := expandItems items_data
  (runTrials container_l container_w container_h max_weight_kg base shuf
      (trialSched n_simulations) none).map (fun acc => acc.map (·.best))

/-- The record returned by `get_container_stats`. -/
structure Stats where
  packed_count : Nat
  unpacked_count : Nat
  weight_total : ℚ
  weight_limit : ℚ
  weight_utilization : ℚ
  volume_utilization : ℚ
  weight_nose : ℚ
  weight_door : ℚ
  weight_left : ℚ
  weight_right : ℚ
  weight_bottom : ℚ
  weight_top : ℚ
  balance_ratio : ℚ
  balance_ratio_len : ℚ
  balance_ratio_width : ℚ
  balance_ratio_height : ℚ
deriving DecidableEq, Repr

/-- Fraction of an item's length lying in the front half (lines 472-475). -/
def ratioNose (midL : ℚ) (item : Item) : ℚ :=
  let d := item.get_dimension.1
  let overlap := max 0 (min midL (item.x + d) - max 0 item.x)
  if d > 0 then overlap / d else if item.x < midL then 1 else 0

/-- Fraction of an item's width lying in the left half (lines 481-484). -/
def ratioLeft (midW : ℚ) (item : Item) : ℚ :=
  let d := item.get_dimension.2.1
  let overlap := max 0 (min midW (item.y + d) - max 0 item.y)
  if d > 0 then overlap / d else if item.y < midW then 1 else 0

/-- Fraction of an item's height lying in the bottom half (lines 490-493). -/
def ratioBottom (midH : ℚ) (item : Item) : ℚ :=
  let d := item.get_dimension.2.2
  let overlap := max 0 (min midH (item.z + d) - max 0 item.z)
  if d > 0 then overlap / d else if item.z < midH then 1 else 0

/-- `get_container_stats` (lines 450-524).  The only unguarded division in
the source is `used_vol / total_vol`; Python raises `ZeroDivisionError`
when the container volume is zero, modelled as `none`.  All other
divisions are guarded in the source. -/
def get_container_stats (c : Container) : Option Stats :=
  let total_vol := c.L * c.W * c.H
  let used_vol := (c.items.map Item.vol).sum
  let total_weight := (c.items.map Item.weight).sum
  let mid_L := c.L / 2
  let mid_W := c.W / 2
  let mid_H := c.H / 2
  let w_nose := (c.items.map (fun i => i.weight * ratioNose mid_L i)).sum
  let w_door := (c.items.map (fun i => i.weight * (1 - ratioNose mid_L i))).sum
  let w_left := (c.items.map (fun i => i.weight * ratioLeft mid_W i)).sum
  let w_right := (c.items.map (fun i => i.weight * (1 - ratioLeft mid_W i))).sum
  let w_bottom := (c.items.map (fun i => i.weight * ratioBottom mid_H i)).sum
  let w_top := (c.items.map (fun i => i.weight * (1 - ratioBottom mid_H i))).sum
  if total_vol = 0 then none
  else some
    { packed_count := c.items.length
      unpacked_count := c.unpacked_items.length
      weight_total := total_weight
      weight_limit := c.max_weight
      weight_utilization := if c.max_weight > 0 then total_weight / c.max_weight * 100 else 0
      volume_utilization := used_vol / total_vol * 100
      weight_nose := w_nose
      weight_door := w_door
      weight_left := w_left
      weight_right := w_right
      weight_bottom := w_bottom
      weight_top := w_top
      balance_ratio := if total_weight > 0 then w_nose / total_weight * 100 else 50
      balance_ratio_len := if total_weight > 0 then w_nose / total_weight * 100 else 50
      balance_ratio_width := if total_weight > 0 then w_left / total_weight * 100 else 50
      balance_ratio_height := if total_weight > 0 then w_bottom / total_weight * 100 else 50 }

deriving instance DecidableEq for Except

/-! ## Specification-side notions used by the claims -/

/-- The immutable identity of an item instance: name, extents, weight.
Placement mutates only position and rotation, so this projection is what
conservation statements track. -/
def core (i : Item) : String × ℚ × ℚ × ℚ × ℚ := (i.name, i.l, i.w, i.h, i.weight)

/-- All item instances owned by a container (placed and unplaced), as
cores. -/
def coreList (c : Container) : List (String × ℚ × ℚ × ℚ × ℚ) :=
  (c.items ++ c.unpacked_items).map core

/-- Two placed boxes overlap by more than `EPSILON` in all three axes
simultaneously (the spec's prohibited configuration). -/
def deepOverlap (p q : Item) : Prop :=
  EPSILON < min (p.x + p.get_dimension.1) (q.x + q.get_dimension.1) - max p.x q.x ∧
  EPSILON <
    min (p.y + p.get_dimension.2.1) (q.y + q.get_dimension.2.1) - max p.y q.y ∧
  EPSILON <
    min (p.z + p.get_dimension.2.2) (q.z + q.get_dimension.2.2) - max p.z q.z

/-- The geometric state invariant maintained by every placement pass. -/
structure Inv (c : Container) : Prop where
  zzero : ∀ p ∈ c.items, p.z = 0
  xlb : ∀ p ∈ c.items, -EPSILON ≤ p.x
  xmin : ∀ p ∈ c.items, min 0 c.L ≤ p.x
  xub : ∀ p ∈ c.items, p.x + p.get_dimension.1 ≤ c.L + EPSILON
  ymin : ∀ p ∈ c.items, min 0 c.W ≤ p.y
  yub : ∀ p ∈ c.items, p.y + p.get_dimension.2.1 ≤ c.W + EPSILON
  hub : ∀ p ∈ c.items, p.get_dimension.2.2 ≤ c.H + EPSILON
  dpos : ∀ p ∈ c.items, 0 < p.l ∧ 0 < p.w ∧ 0 < p.h
  sep : c.items.Pairwise (fun p q => ¬ deepOverlap p q)

/-- The weight bookkeeping invariant: the running weight is the sum of the
placed weights, and it respects a nonnegative capacity. -/
def WeightInv (c : Container) : Prop :=
  c.current_weight = (c.items.map Item.weight).sum ∧
  (0 ≤ c.max_weight → c.current_weight ≤ c.max_weight)

/-- The Trial Scorer winning condition as the spec words it: strictly more
placed items wins outright; on a count tie, volume greater by more than
the `1e-5` tolerance wins; volumes within the tolerance are a tie broken
by strictly smaller bonus-adjusted balance deviation. -/
def specWins (b : BestState) (t : Container) (score : ℚ) : Prop :=
  (t.items.length : ℤ) > b.count ∨
  ((t.items.length : ℤ) = b.count ∧ packedVol t > b.util + 1 / 100000) ∨
  ((t.items.length : ℤ) = b.count ∧ |packedVol t - b.util| < 1 / 100000 ∧
    score < b.balance)

instance (b : BestState) (t : Container) (score : ℚ) : Decidable (specWins b t score) := by
  unfold specWins
  infer_instance

/-- An item's x-midpoint lies strictly before the container's length
midpoint. -/
def midBefore (c : Container) (item : Item) : Prop :=
  item.x + item.get_dimension.1 / 2 < c.L / 2

instance (c : Container) (item : Item) : Decidable (midBefore c item) := by
  unfold midBefore
  infer_instance

/-- An item's x-midpoint equals the container's length midpoint. -/
def midAt (c : Container) (item : Item) : Prop :=
  item.x + item.get_dimension.1 / 2 = c.L / 2

instance (c : Container) (item : Item) : Decidable (midAt c item) := by
  unfold midAt
  infer_instance

/-- The longitudinal balance ratio classified by item midpoints: full
weight before the midpoint, half weight exactly at it, divided by the
container's recorded weight, times 100. -/
def midpointRatio (c : Container) : ℚ :=
  (((c.items.filter (fun i => decide (midBefore c i))).map Item.weight).sum +
      ((c.items.filter (fun i => decide (midAt c i))).map Item.weight).sum / 2) /
    c.current_weight * 100

/-- The balance-ratio formula exactly as the claim words it: items whose
extent straddles the container's length midpoint contribute half their
weight, other items with midpoint before it contribute full weight. -/
def straddleRatio (c : Container) : ℚ :=
  ((c.items.map (fun item =>
      if item.x < c.L / 2 ∧ c.L / 2 < item.x + item.get_dimension.1 then
        item.weight * (1 / 2)
      else if item.x + item.get_dimension.1 / 2 < c.L / 2 then item.weight
      else 0)).sum) / c.current_weight * 100

/-- Total valid anchors of an item summed over both rotation states. -/
def totalSpots (c : Container) (item : Item) (ap : Axis) : Nat :=
  (c.get_all_valid_anchors { item with rotation := 0 } 0 none ap).length +
  (c.get_all_valid_anchors { item with rotation := 1 } 0 none ap).length

/-- The scarcity selection key `(total spots, -area, pool index)` named by
the claim: fewest anchors first, then largest footprint, then smallest
index. -/
def scarcityKey (spots : Nat) (negArea : ℚ) (idx : Nat) : Nat × ℚ × Nat :=
  (spots, negArea, idx)

/-- The claim's ranking of one round's candidates. -/
def scarcityKeyLe (a b : Nat × ℚ × Nat) : Prop := lexLe (lexLe (· ≤ ·)) a b

/-! ## Helper lemmas -/

theorem mem_of_head?_eq {α : Type} {l : List α} {a : α} (h : l.head? = some a) : a ∈ l := by
  cases l with
  | nil => simp at h
  | cons b t =>
    simp only [List.head?_cons, Option.some.injEq] at h
    exact h ▸ List.mem_cons_self b t

theorem mem_enumFrom {α : Type} {l : List α} {n i : Nat} {a : α} :
    (i, a) ∈ enumFrom n l ↔ ∃ j, i = n + j ∧ l.get? j = some a := by
  induction l generalizing n with
  | nil => simp [enumFrom]
  | cons b t ih =>
    simp only [enumFrom, List.mem_cons, Prod.mk.injEq, ih]
    constructor
    · rintro (⟨rfl, rfl⟩ | ⟨j, rfl, hj⟩)
      · exact ⟨0, by omega, rfl⟩
      · exact ⟨j + 1, by omega, hj⟩
    · rintro ⟨j, rfl, hj⟩
      cases j with
      | zero =>
        left
        simp only [List.get?_cons_zero, Option.some.injEq] at hj
        exact ⟨by omega, hj.symm⟩
      | succ j =>
        right
        exact ⟨j, by omega, by simpa using hj⟩

theorem mem_enumerate {α : Type} {l : List α} {i : Nat} {a : α} :
    (i, a) ∈ enumerate l ↔ l.get? i = some a := by
  unfold enumerate
  rw [mem_enumFrom]
  constructor
  · rintro ⟨j, rfl, hj⟩
    simpa using hj
  · intro h
    exact ⟨i, by omega, h⟩

theorem get_eraseIdx_perm {α : Type} :
    ∀ (l : List α) (i : Nat) (a : α), l.get? i = some a → l.Perm (a :: l.eraseIdx i)
  | [], i, a, h => by simp at h
  | b :: t, 0, a, h => by
    simp only [List.get?_cons_zero, Option.some.injEq] at h
    subst h
    simp [List.eraseIdx]
  | b :: t, i + 1, a, h => by
    simp only [List.get?_cons_succ] at h
    have ht := get_eraseIdx_perm t i a h
    have : (b :: t).Perm (b :: a :: t.eraseIdx i) := ht.cons b
    simpa [List.eraseIdx] using this.trans (List.Perm.swap a b (t.eraseIdx i))

theorem eff_dims_pos {p : Item} (h : 0 < p.l ∧ 0 < p.w ∧ 0 < p.h) :
    0 < p.get_dimension.1 ∧ 0 < p.get_dimension.2.1 ∧ 0 < p.get_dimension.2.2 := by
  unfold Item.get_dimension
  split
  · exact ⟨h.2.1, h.1, h.2.2⟩
  · exact ⟨h.1, h.2.1, h.2.2⟩

/-! ## What membership in the anchor list implies -/

theorem xCandidates_mem {c : Container} {x : ℚ} (h : x ∈ c.xCandidates 0) :
    x = 0 ∨ x = c.L ∨ ∃ p ∈ c.items, x = p.x ∨ x = p.x + p.get_dimension.1 := by
  unfold Container.xCandidates at h
  rw [List.mem_dedup] at h
  simp only [List.mem_append, List.mem_cons, List.mem_flatMap, List.mem_singleton,
    List.not_mem_nil, or_false] at h
  rcases h with (rfl | rfl | rfl) | ⟨p, hp, hx⟩
  · exact Or.inl rfl
  · exact Or.inr (Or.inl rfl)
  · exact Or.inl rfl
  · exact Or.inr (Or.inr ⟨p, hp, by simpa using hx⟩)

theorem yCandidates_mem {c : Container} {y : ℚ} (h : y ∈ c.yCandidates) :
    y = 0 ∨ y = c.W ∨ ∃ p ∈ c.items, y = p.y ∨ y = p.y + p.get_dimension.2.1 := by
  unfold Container.yCandidates at h
  rw [List.mem_dedup] at h
  simp only [List.mem_append, List.mem_cons, List.mem_flatMap, List.mem_singleton,
    List.not_mem_nil, or_false] at h
  rcases h with (rfl | rfl) | ⟨p, hp, hy⟩
  · exact Or.inl rfl
  · exact Or.inr (Or.inl rfl)
  · exact Or.inr (Or.inr ⟨p, hp, by simpa using hy⟩)

theorem anchor_mem_spec {c : Container} {item : Item} {ap : Axis} {k : SortKey}
    {a : Anchor} {g : ℚ} (h : (k, a, g) ∈ c.get_all_valid_anchors item 0 none ap) :
    a.2.2 = 0 ∧ a.1 ∈ c.xCandidates 0 ∧ a.2.1 ∈ c.yCandidates ∧
    0 - EPSILON ≤ a.1 ∧ a.1 ≤ (c.L - item.get_dimension.1) + EPSILON ∧
    a.1 + item.get_dimension.1 ≤ c.L + EPSILON ∧
    a.2.1 + item.get_dimension.2.1 ≤ c.W + EPSILON ∧
    item.get_dimension.2.2 ≤ c.H + EPSILON ∧
    ∀ o ∈ c.items, ¬ collides a.1 a.2.1 a.2.2 item.get_dimension.1
      item.get_dimension.2.1 item.get_dimension.2.2 o := by
  unfold Container.get_all_valid_anchors at h
  rw [List.mem_insertionSort] at h
  simp only [Option.getD] at h
  rw [List.mem_filterMap] at h
  obtain ⟨pt, hpt, hsome⟩ := h
  unfold Container.anchorPoints at hpt
  rw [List.mem_dedup] at hpt
  rw [List.mem_flatMap] at hpt
  obtain ⟨x, hx, hpt⟩ := hpt
  rw [List.mem_flatMap] at hpt
  obtain ⟨y, hy, hpt⟩ := hpt
  rw [List.mem_flatMap] at hpt
  obtain ⟨z, hz, hpt⟩ := hpt
  simp only [List.mem_singleton] at hz
  rw [List.mem_filter] at hx
  obtain ⟨hxmem, hxcond⟩ := hx
  rw [decide_eq_true_eq] at hxcond
  push_neg at hxcond
  split at hpt
  case isTrue hbnd =>
    simp only [List.mem_singleton] at hpt
    subst hpt
    subst hz
    split at hsome
    case isTrue => exact absurd hsome (by simp)
    case isFalse hnocol =>
      simp only [Option.some.injEq, Prod.mk.injEq] at hsome
      obtain ⟨-, ha, -⟩ := hsome
      subst ha
      refine ⟨rfl, hxmem, hy, hxcond.1, hxcond.2, hbnd.1, hbnd.2.1, ?_, ?_⟩
      · simpa using hbnd.2.2
      · intro o ho
        intro hcol
        have : c.items.any (fun o =>
            decide (collides x y 0 item.get_dimension.1 item.get_dimension.2.1
              item.get_dimension.2.2 o)) = true := by
          rw [List.any_eq_true]
          exact ⟨o, ho, by simpa using hcol⟩
        exact hnocol this
  case isFalse =>
    simp at hpt

theorem deepOverlap_collides {o p : Item} (h : deepOverlap o p) :
    collides p.x p.y p.z p.get_dimension.1 p.get_dimension.2.1 p.get_dimension.2.2 o := by
  obtain ⟨h1, h2, h3⟩ := h
  have a1 := min_le_left (o.x + o.get_dimension.1) (p.x + p.get_dimension.1)
  have a2 := min_le_right (o.x + o.get_dimension.1) (p.x + p.get_dimension.1)
  have a3 := le_max_left o.x p.x
  have a4 := le_max_right o.x p.x
  have b1 := min_le_left (o.y + o.get_dimension.2.1) (p.y + p.get_dimension.2.1)
  have b2 := min_le_right (o.y + o.get_dimension.2.1) (p.y + p.get_dimension.2.1)
  have b3 := le_max_left o.y p.y
  have b4 := le_max_right o.y p.y
  have d1 := min_le_left (o.z + o.get_dimension.2.2) (p.z + p.get_dimension.2.2)
  have d2 := min_le_right (o.z + o.get_dimension.2.2) (p.z + p.get_dimension.2.2)
  have d3 := le_max_left o.z p.z
  have d4 := le_max_right o.z p.z
  exact ⟨by linarith, by linarith, by linarith, by linarith, by linarith, by linarith⟩

theorem xCandidates_lb {c : Container} (hxmin : ∀ p ∈ c.items, min 0 c.L ≤ p.x)
    (hdpos : ∀ p ∈ c.items, 0 < p.l ∧ 0 < p.w ∧ 0 < p.h) {x : ℚ}
    (h : x ∈ c.xCandidates 0) : min 0 c.L ≤ x := by
  rcases xCandidates_mem h with rfl | rfl | ⟨p, hp, rfl | rfl⟩
  · exact min_le_left 0 c.L
  · exact min_le_right 0 c.L
  · exact hxmin p hp
  · have h1 := hxmin p hp
    have h2 := (eff_dims_pos (hdpos p hp)).1
    linarith

theorem yCandidates_lb {c : Container} (hymin : ∀ p ∈ c.items, min 0 c.W ≤ p.y)
    (hdpos : ∀ p ∈ c.items, 0 < p.l ∧ 0 < p.w ∧ 0 < p.h) {y : ℚ}
    (h : y ∈ c.yCandidates) : min 0 c.W ≤ y := by
  rcases yCandidates_mem h with rfl | rfl | ⟨p, hp, rfl | rfl⟩
  · exact min_le_left 0 c.W
  · exact min_le_right 0 c.W
  · exact hymin p hp
  · have h1 := hymin p hp
    have h2 := (eff_dims_pos (hdpos p hp)).2.1
    linarith

theorem place_inv {c : Container} {item0 : Item} {rot : Nat} {k : SortKey} {a : Anchor}
    {g : ℚ} {ap : Axis} (hI : Inv c) (hd : 0 < item0.l ∧ 0 < item0.w ∧ 0 < item0.h)
    (ha : (k, a, g) ∈ c.get_all_valid_anchors { item0 with rotation := rot } 0 none ap) :
    Inv (c.place item0 rot a) := by
  obtain ⟨hz0, hxc, hyc, hxl, hxu', hxu, hyu, hhu, hnc⟩ := anchor_mem_spec ha
  have hmem : ∀ p, p ∈ (c.place item0 rot a).items →
      p ∈ c.items ∨ p = { item0 with rotation := rot, x := a.1, y := a.2.1, z := a.2.2 } := by
    intro p hp
    simpa [Container.place] using hp
  constructor
  · intro p hp
    rcases hmem p hp with h | rfl
    · exact hI.zzero p h
    · exact hz0
  · intro p hp
    rcases hmem p hp with h | rfl
    · exact hI.xlb p h
    · simpa using hxl
  · intro p hp
    rcases hmem p hp with h | rfl
    · exact hI.xmin p h
    · exact xCandidates_lb hI.xmin hI.dpos hxc
  · intro p hp
    rcases hmem p hp with h | rfl
    · exact hI.xub p h
    · exact hxu
  · intro p hp
    rcases hmem p hp with h | rfl
    · exact hI.ymin p h
    · exact yCandidates_lb hI.ymin hI.dpos hyc
  · intro p hp
    rcases hmem p hp with h | rfl
    · exact hI.yub p h
    · exact hyu
  · intro p hp
    rcases hmem p hp with h | rfl
    · exact hI.hub p h
    · exact hhu
  · intro p hp
    rcases hmem p hp with h | rfl
    · exact hI.dpos p h
    · exact hd
  · show ((c.place item0 rot a).items).Pairwise _
    have : (c.place item0 rot a).items =
        c.items ++ [{ item0 with rotation := rot, x := a.1, y := a.2.1, z := a.2.2 }] := by
      simp [Container.place]
    rw [this, List.pairwise_append]
    refine ⟨hI.sep, List.pairwise_singleton _ _, ?_⟩
    intro o ho p hp
    simp only [List.mem_singleton] at hp
    subst hp
    intro hdeep
    exact hnc o ho (deepOverlap_collides hdeep)

theorem dump_inv {c : Container} (hI : Inv c) (pool : List Item) : Inv (c.dump pool) :=
  ⟨hI.zzero, hI.xlb, hI.xmin, hI.xub, hI.ymin, hI.yub, hI.hub, hI.dpos, hI.sep⟩

theorem place_weight {c : Container} {item0 : Item} {rot : Nat} {a : Anchor}
    (hW : WeightInv c) (hg : ¬(c.current_weight + item0.weight > c.max_weight)) :
    WeightInv (c.place item0 rot a) := by
  obtain ⟨h1, _⟩ := hW
  constructor
  · simp [Container.place, h1]
  · intro _
    push_neg at hg
    simpa [Container.place] using hg

theorem dump_weight {c : Container} (hW : WeightInv c) (pool : List Item) :
    WeightInv (c.dump pool) := hW

theorem place_coreList (c : Container) (item0 : Item) (rot : Nat) (a : Anchor) :
    (coreList (c.place item0 rot a)).Perm (core item0 :: coreList c) := by
  have : coreList (c.place item0 rot a) =
      c.items.map core ++ core item0 :: c.unpacked_items.map core := by
    simp [coreList, Container.place, core]
  rw [this]
  have h2 : coreList c = c.items.map core ++ c.unpacked_items.map core := by
    simp [coreList]
  rw [h2]
  exact List.perm_middle

theorem dump_coreList (c : Container) (pool : List Item) :
    coreList (c.dump pool) = coreList c ++ pool.map core := by
  simp [coreList, Container.dump, List.append_assoc]

/-! ## Extraction lemmas for the scarcity round -/

theorem scarcityScores_spec {c : Container} {pool : List Item} {ap : Axis} {e : ScoreEntry}
    (h : e ∈ scarcityScores c pool ap) :
    ∃ item, pool.get? e.idx = some item ∧
      ¬(c.current_weight + item.weight > c.max_weight) ∧
      e.negArea = -item.base_area ∧
      bestMoveFor c item ap = (e.spots, some (e.rot, (e.ax, e.ay, e.az))) ∧
      0 < e.spots := by
  unfold scarcityScores at h
  rw [List.mem_filterMap] at h
  obtain ⟨⟨i, item⟩, hmem, hfn⟩ := h
  rw [mem_enumerate] at hmem
  dsimp only at hfn
  split at hfn
  · exact absurd hfn (by simp)
  case isFalse hguard =>
    rcases hbm : bestMoveFor c item ap with ⟨total, bm⟩
    rw [hbm] at hfn
    match bm, hfn with
    | some (r, a), hfn =>
      dsimp only at hfn
      split at hfn
      case isTrue hpos =>
        simp only [Option.some.injEq] at hfn
        subst hfn
        exact ⟨item, hmem, hguard, rfl, hbm, hpos⟩
      case isFalse => exact absurd hfn (by simp)
    | none, hfn => exact absurd hfn (by simp)

theorem bestMoveFor_anchor {c : Container} {item : Item} {ap : Axis} {total : Nat}
    {r : Nat} {a : Anchor} (h : bestMoveFor c item ap = (total, some (r, a))) :
    ∃ k g, (k, a, g) ∈ c.get_all_valid_anchors { item with rotation := r } 0 none ap := by
  unfold bestMoveFor at h
  dsimp only at h
  rw [Prod.mk.injEq] at h
  obtain ⟨-, h⟩ := h
  split at h
  case h_1 e0 e1 heq0 heq1 =>
    split at h
    · simp only [Option.some.injEq, Prod.mk.injEq] at h
      obtain ⟨hr, ha⟩ := h
      subst hr
      subst ha
      exact ⟨e1.1, e1.2.2, by simpa using mem_of_head?_eq heq1⟩
    · simp only [Option.some.injEq, Prod.mk.injEq] at h
      obtain ⟨hr, ha⟩ := h
      subst hr
      subst ha
      exact ⟨e0.1, e0.2.2, by simpa using mem_of_head?_eq heq0⟩
  case h_2 e0 heq0 heq1 =>
    simp only [Option.some.injEq, Prod.mk.injEq] at h
    obtain ⟨hr, ha⟩ := h
    subst hr
    subst ha
    exact ⟨e0.1, e0.2.2, by simpa using mem_of_head?_eq heq0⟩
  case h_3 e1 heq0 heq1 =>
    simp only [Option.some.injEq, Prod.mk.injEq] at h
    obtain ⟨hr, ha⟩ := h
    subst hr
    subst ha
    exact ⟨e1.1, e1.2.2, by simpa using mem_of_head?_eq heq1⟩
  case h_4 => simp at h

/-! ## The Global Scarcity Fit pass preserves the invariants -/

theorem scarcityLoop_inv (ap : Axis) :
    ∀ (fuel : Nat) (c : Container) (pool : List Item), Inv c →
      (∀ p ∈ pool, 0 < p.l ∧ 0 < p.w ∧ 0 < p.h) →
      Inv (scarcityLoop ap fuel c pool) := by
  intro fuel
  induction fuel with
  | zero =>
    intro c pool hI hp
    cases pool with
    | nil => simpa [scarcityLoop] using hI
    | cons a t => simpa [scarcityLoop] using dump_inv hI _
  | succ fuel ih =>
    intro c pool hI hp
    cases pool with
    | nil => simpa [scarcityLoop] using hI
    | cons b t =>
      rw [scarcityLoop]
      split
      · exact dump_inv hI _
      case h_2 e rest hsorted =>
        split
        · exact dump_inv hI _
        case h_2 item0 hget =>
          have he : e ∈ scarcityScores c (b :: t) ap := by
            have hm : e ∈ (scarcityScores c (b :: t) ap).insertionSort entryRel := by
              rw [hsorted]
              exact List.mem_cons_self _ _
            rwa [List.mem_insertionSort] at hm
          obtain ⟨item, hgetit, hw, hna, hbm, hpos⟩ := scarcityScores_spec he
          rw [hget] at hgetit
          obtain rfl : item0 = item := by simpa using hgetit
          obtain ⟨k, g, hak⟩ := bestMoveFor_anchor hbm
          refine ih _ _ (place_inv hI ?_ hak) ?_
          · exact hp item0 (List.get?_mem hget)
          · intro p hpe
            exact hp p ((List.eraseIdx_sublist _ _).subset hpe)
      simp

theorem scarcityLoop_weight (ap : Axis) :
    ∀ (fuel : Nat) (c : Container) (pool : List Item), WeightInv c →
      WeightInv (scarcityLoop ap fuel c pool) := by
  intro fuel
  induction fuel with
  | zero =>
    intro c pool hW
    cases pool with
    | nil => simpa [scarcityLoop] using hW
    | cons a t => simpa [scarcityLoop] using dump_weight hW _
  | succ fuel ih =>
    intro c pool hW
    cases pool with
    | nil => simpa [scarcityLoop] using hW
    | cons b t =>
      rw [scarcityLoop]
      split
      · exact dump_weight hW _
      case h_2 e rest hsorted =>
        split
        · exact dump_weight hW _
        case h_2 item0 hget =>
          have he : e ∈ scarcityScores c (b :: t) ap := by
            have hm : e ∈ (scarcityScores c (b :: t) ap).insertionSort entryRel := by
              rw [hsorted]
              exact List.mem_cons_self _ _
            rwa [List.mem_insertionSort] at hm
          obtain ⟨item, hgetit, hw, -, -, -⟩ := scarcityScores_spec he
          rw [hget] at hgetit
          obtain rfl : item0 = item := by simpa using hgetit
          exact ih _ _ (place_weight hW hw)
      simp

theorem scarcityLoop_conserve (ap : Axis) :
    ∀ (fuel : Nat) (c : Container) (pool : List Item),
      (coreList (scarcityLoop ap fuel c pool)).Perm (coreList c ++ pool.map core) := by
  intro fuel
  induction fuel with
  | zero =>
    intro c pool
    cases pool with
    | nil => simp [scarcityLoop]
    | cons a t => simp [scarcityLoop, dump_coreList]
  | succ fuel ih =>
    intro c pool
    cases pool with
    | nil => simp [scarcityLoop]
    | cons b t =>
      rw [scarcityLoop]
      split
      · simp [dump_coreList]
      case h_2 e rest hsorted =>
        split
        · simp [dump_coreList]
        case h_2 item0 hget =>
          have hperm : ((b :: t).map core).Perm
              (core item0 :: ((b :: t).eraseIdx e.idx).map core) := by
            exact (get_eraseIdx_perm _ _ _ hget).map core
          refine (ih _ _).trans ?_
          have s1 : (coreList (c.place item0 e.rot (e.ax, e.ay, e.az)) ++
              ((b :: t).eraseIdx e.idx).map core).Perm
              ((core item0 :: coreList c) ++ ((b :: t).eraseIdx e.idx).map core) :=
            (place_coreList c item0 e.rot (e.ax, e.ay, e.az)).append_right _
          have s2 : ((core item0 :: coreList c) ++
              ((b :: t).eraseIdx e.idx).map core).Perm
              (coreList c ++ core item0 :: ((b :: t).eraseIdx e.idx).map core) :=
            List.perm_middle.symm
          have s3 : (coreList c ++
              core item0 :: ((b :: t).eraseIdx e.idx).map core).Perm
              (coreList c ++ (b :: t).map core) := hperm.symm.append_left _
          exact s1.trans (s2.trans s3)
      simp

/-! ## Extraction lemmas for the spot-centric scan and Monte-Carlo fits -/

theorem find_best_fit_anchor {c : Container} {item : Item} {ap : Axis} {a : Anchor}
    {gap : ℚ} (h : c.find_best_fit item 0 none ap = some (a, gap)) :
    ∃ k, (k, a, gap) ∈ c.get_all_valid_anchors item 0 none ap := by
  unfold Container.find_best_fit at h
  split at h
  · simp at h
  case h_2 e rest heq =>
    simp only [Option.some.injEq, Prod.mk.injEq] at h
    obtain ⟨ha, hg⟩ := h
    refine ⟨e.1, ?_⟩
    have : e = (e.1, a, gap) := by
      rw [← ha, ← hg]
    rw [← this, heq]
    exact List.mem_cons_self _ _

theorem spotScan_spec {c : Container} {ap : Axis} {pool : List Item} :
    ∀ (l : List (Nat × Item)) (best : Option SpotMove) (mv : SpotMove),
      (∀ b ∈ best, ∃ item gap, pool.get? b.2.1 = some item ∧
        ¬(c.current_weight + item.weight > c.max_weight) ∧
        c.find_best_fit { item with rotation := b.2.2.1 } 0 none ap =
          some (b.2.2.2, gap)) →
      (∀ p ∈ l, pool.get? p.1 = some p.2) →
      spotScan c ap l best = some mv →
      ∃ item gap, pool.get? mv.2.1 = some item ∧
        ¬(c.current_weight + item.weight > c.max_weight) ∧
        c.find_best_fit { item with rotation := mv.2.2.1 } 0 none ap =
          some (mv.2.2.2, gap) := by
  intro l
  induction l with
  | nil =>
    intro best mv hbest _ hscan
    simp only [spotScan] at hscan
    exact hbest mv hscan
  | cons p rest ih =>
    rcases p with ⟨idx, item⟩
    intro best mv hbest hl hscan
    rw [spotScan] at hscan
    split at hscan
    case isTrue =>
      exact ih best mv hbest (fun q hq => hl q (List.mem_cons_of_mem _ hq)) hscan
    case isFalse hguard =>
      refine ih _ mv ?_ (fun q hq => hl q (List.mem_cons_of_mem _ hq)) hscan
      have hidx : pool.get? idx = some item := hl (idx, item) (List.mem_cons_self _ _)
      have step : ∀ (b0 : Option SpotMove) (rot : Nat),
          (∀ b ∈ b0, ∃ it gap, pool.get? b.2.1 = some it ∧
            ¬(c.current_weight + it.weight > c.max_weight) ∧
            c.find_best_fit { it with rotation := b.2.2.1 } 0 none ap =
              some (b.2.2.2, gap)) →
          ∀ b ∈ spotTryRot c ap idx item rot b0, ∃ it gap,
            pool.get? b.2.1 = some it ∧
            ¬(c.current_weight + it.weight > c.max_weight) ∧
            c.find_best_fit { it with rotation := b.2.2.1 } 0 none ap =
              some (b.2.2.2, gap) := by
        intro b0 rot hb0 b hb
        unfold spotTryRot at hb
        split at hb
        · exact hb0 b hb
        case h_2 a gap hfit =>
          unfold spotConsider at hb
          split at hb
          · simp only [Option.mem_def, Option.some.injEq] at hb
            subst hb
            exact ⟨item, gap, hidx, hguard, hfit⟩
          case h_2 bb =>
            rw [Option.mem_def] at hb
            dsimp only at hb
            split at hb
            · simp only [Option.mem_def, Option.some.injEq] at hb
              subst hb
              exact ⟨item, gap, hidx, hguard, hfit⟩
            · simp only [Option.mem_def, Option.some.injEq] at hb
              subst hb
              exact hb0 bb rfl
      exact step _ 1 (step _ 0 hbest)

theorem mcBestFit_anchor {c : Container} {item : Item} {ap : Axis} {a : Anchor}
    {rot : Nat} (h : mcBestFit c item ap = some (a, rot)) :
    ∃ k g, (k, a, g) ∈ c.get_all_valid_anchors { item with rotation := rot } 0 none ap := by
  unfold mcBestFit at h
  dsimp only at h
  split at h
  case h_1 => simp at h
  case h_2 a0 g0 heq0 heq1 =>
    simp only [Option.some.injEq, Prod.mk.injEq] at h
    obtain ⟨ha, hr⟩ := h
    subst ha
    subst hr
    obtain ⟨k, hk⟩ := find_best_fit_anchor heq0
    exact ⟨k, g0, hk⟩
  case h_3 a1 g1 heq0 heq1 =>
    simp only [Option.some.injEq, Prod.mk.injEq] at h
    obtain ⟨ha, hr⟩ := h
    subst ha
    subst hr
    obtain ⟨k, hk⟩ := find_best_fit_anchor heq1
    exact ⟨k, g1, hk⟩
  case h_4 a0 g0 a1 g1 heq0 heq1 =>
    split at h
    · simp only [Option.some.injEq, Prod.mk.injEq] at h
      obtain ⟨ha, hr⟩ := h
      subst ha
      subst hr
      obtain ⟨k, hk⟩ := find_best_fit_anchor heq1
      exact ⟨k, g1, hk⟩
    · simp only [Option.some.injEq, Prod.mk.injEq] at h
      obtain ⟨ha, hr⟩ := h
      subst ha
      subst hr
      obtain ⟨k, hk⟩ := find_best_fit_anchor heq0
      exact ⟨k, g0, hk⟩

/-! ## The Spot Centric pass preserves the invariants -/

theorem spotLoop_inv (ap : Axis) :
    ∀ (fuel : Nat) (c : Container) (pool : List Item), Inv c →
      (∀ p ∈ pool, 0 < p.l ∧ 0 < p.w ∧ 0 < p.h) →
      Inv (spotLoop ap fuel c pool) := by
  intro fuel
  induction fuel with
  | zero =>
    intro c pool hI hp
    cases pool with
    | nil => simpa [spotLoop] using hI
    | cons a t => simpa [spotLoop] using dump_inv hI _
  | succ fuel ih =>
    intro c pool hI hp
    cases pool with
    | nil => simpa [spotLoop] using hI
    | cons b t =>
      rw [spotLoop]
      split
      · exact dump_inv hI _
      case h_2 m idx rot a hscan =>
        split
        · exact dump_inv hI _
        case h_2 item0 hget =>
          have hsp : ∀ q ∈ enumerate (b :: t), (b :: t).get? q.1 = some q.2 := by
            intro q hq
            rcases q with ⟨j, it⟩
            exact mem_enumerate.mp hq
          obtain ⟨item, gap, hgetit, hw, hfit⟩ :=
            spotScan_spec (enumerate (b :: t)) none (m, idx, rot, a) (by simp) hsp hscan
          have hgetit2 : (b :: t).get? idx = some item := hgetit
          rw [hget] at hgetit2
          obtain rfl : item0 = item := by simpa using hgetit2
          obtain ⟨k, hk⟩ := find_best_fit_anchor hfit
          refine ih _ _ (place_inv hI ?_ hk) ?_
          · exact hp item0 (List.get?_mem hget)
          · intro p hpe
            exact hp p ((List.eraseIdx_sublist _ _).subset hpe)
      simp

theorem spotLoop_weight (ap : Axis) :
    ∀ (fuel : Nat) (c : Container) (pool : List Item), WeightInv c →
      WeightInv (spotLoop ap fuel c pool) := by
  intro fuel
  induction fuel with
  | zero =>
    intro c pool hW
    cases pool with
    | nil => simpa [spotLoop] using hW
    | cons a t => simpa [spotLoop] using dump_weight hW _
  | succ fuel ih =>
    intro c pool hW
    cases pool with
    | nil => simpa [spotLoop] using hW
    | cons b t =>
      rw [spotLoop]
      split
      · exact dump_weight hW _
      case h_2 m idx rot a hscan =>
        split
        · exact dump_weight hW _
        case h_2 item0 hget =>
          have hsp : ∀ q ∈ enumerate (b :: t), (b :: t).get? q.1 = some q.2 := by
            intro q hq
            rcases q with ⟨j, it⟩
            exact mem_enumerate.mp hq
          obtain ⟨item, gap, hgetit, hw, hfit⟩ :=
            spotScan_spec (enumerate (b :: t)) none (m, idx, rot, a) (by simp) hsp hscan
          have hgetit2 : (b :: t).get? idx = some item := hgetit
          rw [hget] at hgetit2
          obtain rfl : item0 = item := by simpa using hgetit2
          exact ih _ _ (place_weight hW hw)
      simp

theorem spotLoop_conserve (ap : Axis) :
    ∀ (fuel : Nat) (c : Container) (pool : List Item),
      (coreList (spotLoop ap fuel c pool)).Perm (coreList c ++ pool.map core) := by
  intro fuel
  induction fuel with
  | zero =>
    intro c pool
    cases pool with
    | nil => simp [spotLoop]
    | cons a t => simp [spotLoop, dump_coreList]
  | succ fuel ih =>
    intro c pool
    cases pool with
    | nil => simp [spotLoop]
    | cons b t =>
      rw [spotLoop]
      split
      · simp [dump_coreList]
      case h_2 m idx rot a hscan =>
        split
        · simp [dump_coreList]
        case h_2 item0 hget =>
          have hperm : ((b :: t).map core).Perm
              (core item0 :: ((b :: t).eraseIdx idx).map core) :=
            (get_eraseIdx_perm _ _ _ hget).map core
          refine (ih _ _).trans ?_
          have s1 : (coreList (c.place item0 rot a) ++
              ((b :: t).eraseIdx idx).map core).Perm
              ((core item0 :: coreList c) ++ ((b :: t).eraseIdx idx).map core) :=
            (place_coreList c item0 rot a).append_right _
          have s2 : ((core item0 :: coreList c) ++
              ((b :: t).eraseIdx idx).map core).Perm
              (coreList c ++ core item0 :: ((b :: t).eraseIdx idx).map core) :=
            List.perm_middle.symm
          have s3 : (coreList c ++
              core item0 :: ((b :: t).eraseIdx idx).map core).Perm
              (coreList c ++ (b :: t).map core) := hperm.symm.append_left _
          exact s1.trans (s2.trans s3)
      simp

/-! ## The Monte-Carlo pass preserves the invariants -/

theorem mcPlace_inv (ap : Axis) :
    ∀ (l : List Item) (c : Container), Inv c →
      (∀ p ∈ l, 0 < p.l ∧ 0 < p.w ∧ 0 < p.h) → Inv (mcPlace ap c l) := by
  intro l
  induction l with
  | nil =>
    intro c hI _
    simpa [mcPlace] using hI
  | cons item rest ih =>
    intro c hI hp
    rw [mcPlace]
    split
    case isTrue =>
      exact ih _ (dump_inv hI [item]) (fun p hpe => hp p (List.mem_cons_of_mem _ hpe))
    case isFalse hguard =>
      split
      case h_1 a rot hfit =>
        obtain ⟨k, g, hk⟩ := mcBestFit_anchor hfit
        exact ih _ (place_inv hI (hp item (List.mem_cons_self _ _)) hk)
          (fun p hpe => hp p (List.mem_cons_of_mem _ hpe))
      case h_2 =>
        exact ih _ (dump_inv hI [item]) (fun p hpe => hp p (List.mem_cons_of_mem _ hpe))

theorem mcPlace_weight (ap : Axis) :
    ∀ (l : List Item) (c : Container), WeightInv c → WeightInv (mcPlace ap c l) := by
  intro l
  induction l with
  | nil =>
    intro c hW
    simpa [mcPlace] using hW
  | cons item rest ih =>
    intro c hW
    rw [mcPlace]
    split
    case isTrue => exact ih _ (dump_weight hW [item])
    case isFalse hguard =>
      split
      case h_1 a rot hfit => exact ih _ (place_weight hW hguard)
      case h_2 => exact ih _ (dump_weight hW [item])

theorem mcPlace_conserve (ap : Axis) :
    ∀ (l : List Item) (c : Container),
      (coreList (mcPlace ap c l)).Perm (coreList c ++ l.map core) := by
  intro l
  induction l with
  | nil =>
    intro c
    simp [mcPlace]
  | cons item rest ih =>
    intro c
    rw [mcPlace]
    have hskip : (coreList (mcPlace ap
        { c with unpacked_items := c.unpacked_items ++ [item] } rest)).Perm
        (coreList c ++ (item :: rest).map core) := by
      refine (ih _).trans ?_
      have : coreList { c with unpacked_items := c.unpacked_items ++ [item] } =
          coreList c ++ [core item] := dump_coreList c [item]
      rw [this, List.append_assoc]
      simp
    split
    case isTrue => exact hskip
    case isFalse hguard =>
      split
      case h_1 a rot hfit =>
        refine (ih _).trans ?_
        have s1 : (coreList (c.place item rot a) ++ rest.map core).Perm
            ((core item :: coreList c) ++ rest.map core) :=
          (place_coreList c item rot a).append_right _
        have s2 : ((core item :: coreList c) ++ rest.map core).Perm
            (coreList c ++ core item :: rest.map core) := List.perm_middle.symm
        exact s1.trans s2
      case h_2 => exact hskip

/-! ## Trial-level invariants -/

theorem empty_inv (cl cw ch mw : ℚ) :
    Inv { L := cl, W := cw, H := ch, max_weight := mw } := by
  constructor <;> simp

theorem empty_weight (cl cw ch mw : ℚ) :
    WeightInv { L := cl, W := cw, H := ch, max_weight := mw } :=
  ⟨by simp, fun _ => by simpa using ‹_›⟩

theorem copy_dims {base : List Item} (hd : ∀ p ∈ base, 0 < p.l ∧ 0 < p.w ∧ 0 < p.h) :
    ∀ p ∈ base.map copyItem, 0 < p.l ∧ 0 < p.w ∧ 0 < p.h := by
  intro p hp
  rw [List.mem_map] at hp
  obtain ⟨q, hq, rfl⟩ := hp
  exact hd q hq

theorem mcOrder_perm {shuf : Nat → List Item → List Item}
    (hshuf : ∀ n l, (shuf n l).Perm l) (i : Nat) (pool : List Item) :
    (mcOrder shuf i pool).Perm pool := by
  unfold mcOrder
  split
  · exact hshuf i pool
  · exact (hshuf i _).trans (List.perm_insertionSort _ _)
  · exact (hshuf i _).trans (List.perm_insertionSort _ _)
  · exact (hshuf i _).trans (List.perm_insertionSort _ _)
  · refine (((hshuf i _).append_left _).trans ?_)
    rw [List.take_append_drop]
    exact List.perm_insertionSort _ _
  · exact (hshuf i _).trans (List.perm_insertionSort _ _)

theorem runTrial_inv {cl cw ch mw : ℚ} {base : List Item}
    {shuf : Nat → List Item → List Item} (hshuf : ∀ n l, (shuf n l).Perm l)
    (hd : ∀ p ∈ base, 0 < p.l ∧ 0 < p.w ∧ 0 < p.h) (s : Strat) (i : Nat) (ap : Axis) :
    Inv (runTrial cl cw ch mw base shuf s i ap) := by
  cases s with
  | scarcity => exact scarcityLoop_inv ap _ _ _ (empty_inv cl cw ch mw) (copy_dims hd)
  | spot => exact spotLoop_inv ap _ _ _ (empty_inv cl cw ch mw) (copy_dims hd)
  | monteCarlo =>
    refine mcPlace_inv ap _ _ (empty_inv cl cw ch mw) ?_
    intro p hp
    exact copy_dims hd p ((mcOrder_perm hshuf i _).mem_iff.mp hp)

theorem runTrial_weight (cl cw ch mw : ℚ) (base : List Item)
    (shuf : Nat → List Item → List Item) (s : Strat) (i : Nat) (ap : Axis) :
    WeightInv (runTrial cl cw ch mw base shuf s i ap) := by
  cases s with
  | scarcity => exact scarcityLoop_weight ap _ _ _ (empty_weight cl cw ch mw)
  | spot => exact spotLoop_weight ap _ _ _ (empty_weight cl cw ch mw)
  | monteCarlo => exact mcPlace_weight ap _ _ (empty_weight cl cw ch mw)

theorem core_copy (i : Item) : core (copyItem i) = core i := rfl

theorem runTrial_conserve {cl cw ch mw : ℚ} {base : List Item}
    {shuf : Nat → List Item → List Item} (hshuf : ∀ n l, (shuf n l).Perm l)
    (s : Strat) (i : Nat) (ap : Axis) :
    (coreList (runTrial cl cw ch mw base shuf s i ap)).Perm (base.map core) := by
  have hcopy : (base.map copyItem).map core = base.map core := by
    rw [List.map_map]
    rfl
  have hempty : coreList { L := cl, W := cw, H := ch, max_weight := mw } = [] := rfl
  cases s with
  | scarcity =>
    refine (scarcityLoop_conserve ap _ _ _).trans ?_
    rw [hempty, List.nil_append, hcopy]
  | spot =>
    refine (spotLoop_conserve ap _ _ _).trans ?_
    rw [hempty, List.nil_append, hcopy]
  | monteCarlo =>
    refine (mcPlace_conserve ap _ _).trans ?_
    rw [hempty, List.nil_append]
    refine ((mcOrder_perm hshuf i _).map core).trans ?_
    rw [hcopy]

/-- Each pass leaves the container's dimensions and capacity unchanged. -/
theorem place_box (c : Container) (item0 : Item) (rot : Nat) (a : Anchor) :
    (c.place item0 rot a).L = c.L ∧ (c.place item0 rot a).W = c.W ∧
    (c.place item0 rot a).H = c.H ∧ (c.place item0 rot a).max_weight = c.max_weight := by
  simp [Container.place]

theorem scarcityLoop_box (ap : Axis) :
    ∀ (fuel : Nat) (c : Container) (pool : List Item),
      (scarcityLoop ap fuel c pool).L = c.L ∧ (scarcityLoop ap fuel c pool).W = c.W ∧
      (scarcityLoop ap fuel c pool).H = c.H ∧
      (scarcityLoop ap fuel c pool).max_weight = c.max_weight := by
  intro fuel
  induction fuel with
  | zero =>
    intro c pool
    cases pool with
    | nil => simp [scarcityLoop]
    | cons a t => simp [scarcityLoop, Container.dump]
  | succ fuel ih =>
    intro c pool
    cases pool with
    | nil => simp [scarcityLoop]
    | cons b t =>
      rw [scarcityLoop]
      split
      · simp [Container.dump]
      case h_2 e rest hsorted =>
        split
        · simp [Container.dump]
        case h_2 item0 hget =>
          obtain ⟨i1, i2, i3, i4⟩ :=
            ih (c.place item0 e.rot (e.ax, e.ay, e.az)) ((b :: t).eraseIdx e.idx)
          obtain ⟨p1, p2, p3, p4⟩ := place_box c item0 e.rot (e.ax, e.ay, e.az)
          exact ⟨i1.trans p1, i2.trans p2, i3.trans p3, i4.trans p4⟩
      simp

theorem spotLoop_box (ap : Axis) :
    ∀ (fuel : Nat) (c : Container) (pool : List Item),
      (spotLoop ap fuel c pool).L = c.L ∧ (spotLoop ap fuel c pool).W = c.W ∧
      (spotLoop ap fuel c pool).H = c.H ∧
      (spotLoop ap fuel c pool).max_weight = c.max_weight := by
  intro fuel
  induction fuel with
  | zero =>
    intro c pool
    cases pool with
    | nil => simp [spotLoop]
    | cons a t => simp [spotLoop, Container.dump]
  | succ fuel ih =>
    intro c pool
    cases pool with
    | nil => simp [spotLoop]
    | cons b t =>
      rw [spotLoop]
      split
      · simp [Container.dump]
      case h_2 m idx rot a hscan =>
        split
        · simp [Container.dump]
        case h_2 item0 hget =>
          obtain ⟨i1, i2, i3, i4⟩ := ih (c.place item0 rot a) ((b :: t).eraseIdx idx)
          obtain ⟨p1, p2, p3, p4⟩ := place_box c item0 rot a
          exact ⟨i1.trans p1, i2.trans p2, i3.trans p3, i4.trans p4⟩
      simp

theorem mcPlace_box (ap : Axis) :
    ∀ (l : List Item) (c : Container),
      (mcPlace ap c l).L = c.L ∧ (mcPlace ap c l).W = c.W ∧
      (mcPlace ap c l).H = c.H ∧ (mcPlace ap c l).max_weight = c.max_weight := by
  intro l
  induction l with
  | nil =>
    intro c
    simp [mcPlace]
  | cons item rest ih =>
    intro c
    rw [mcPlace]
    split
    case isTrue => simpa [Container.dump] using ih _
    case isFalse hguard =>
      split
      case h_1 a rot hfit =>
        obtain ⟨i1, i2, i3, i4⟩ := ih (c.place item rot a)
        obtain ⟨p1, p2, p3, p4⟩ := place_box c item rot a
        exact ⟨i1.trans p1, i2.trans p2, i3.trans p3, i4.trans p4⟩
      case h_2 => simpa [Container.dump] using ih _

theorem runTrial_box (cl cw ch mw : ℚ) (base : List Item)
    (shuf : Nat → List Item → List Item) (s : Strat) (i : Nat) (ap : Axis) :
    (runTrial cl cw ch mw base shuf s i ap).L = cl ∧
    (runTrial cl cw ch mw base shuf s i ap).W = cw ∧
    (runTrial cl cw ch mw base shuf s i ap).H = ch ∧
    (runTrial cl cw ch mw base shuf s i ap).max_weight = mw := by
  cases s with
  | scarcity => exact scarcityLoop_box ap _ _ _
  | spot => exact spotLoop_box ap _ _ _
  | monteCarlo => exact mcPlace_box ap _ _

/-! ## The returned best container is one of the trials -/

theorem compareTrial_best_cases (b : BestState) (t : Container) (d bonus : ℚ) :
    (compareTrial b t d bonus).best = t ∨ (compareTrial b t d bonus).best = b.best := by
  unfold compareTrial
  dsimp only
  split
  case isTrue => exact Or.inl rfl
  case isFalse =>
    split
    case isTrue =>
      split
      case isTrue => exact Or.inl rfl
      case isFalse =>
        split
        case isTrue =>
          split
          case isTrue => exact Or.inl rfl
          case isFalse => exact Or.inr rfl
        case isFalse => exact Or.inr rfl
    case isFalse => exact Or.inr rfl

theorem runTrials_best (P : Container → Prop) {cl cw ch mw : ℚ} {base : List Item}
    {shuf : Nat → List Item → List Item}
    (hP : ∀ s i ap, P (runTrial cl cw ch mw base shuf s i ap)) :
    ∀ (sched : List (Strat × Nat × Axis)) (acc : Option BestState),
      (∀ b, acc = some b → P b.best) →
      ∀ bs, runTrials cl cw ch mw base shuf sched acc = .ok (some bs) → P bs.best := by
  intro sched
  induction sched with
  | nil =>
    intro acc hacc bs h
    simp only [runTrials, Except.ok.injEq] at h
    exact hacc bs h
  | cons tr rest ih =>
    intro acc hacc bs h
    rw [runTrials] at h
    split at h
    · exact absurd h (by simp)
    case h_2 acc2 heq =>
      refine ih acc2 ?_ bs h
      intro b hb
      subst hb
      unfold scoreTrial at heq
      split at heq
      · exact absurd heq (by simp)
      case h_2 pr hbal =>
        simp only [Except.ok.injEq, Option.some.injEq] at heq
        cases hacc2 : acc with
        | none =>
          rw [hacc2] at heq
          simp only at heq
          obtain ⟨rfl⟩ := heq
          exact hP tr.1 tr.2.1 tr.2.2
        | some b0 =>
          rw [hacc2] at heq
          simp only at heq
          obtain ⟨rfl⟩ := heq
          rcases compareTrial_best_cases b0 (runTrial cl cw ch mw base shuf tr.1 tr.2.1 tr.2.2)
              pr.1 (stratBonus tr.1) with hc | hc
          · rw [hc]
            exact hP tr.1 tr.2.1 tr.2.2
          · rw [hc]
            exact hacc b0 hacc2

theorem solve_packing_best (P : Container → Prop) {cl cw ch : ℚ} {data : List ItemData}
    {mw : ℚ} {bw : Bool} {nsim : Nat} {shuf : Nat → List Item → List Item} {c : Container}
    (hP : ∀ s i ap, P (runTrial cl cw ch mw (expandItems data) shuf s i ap))
    (h : solve_packing cl cw ch data mw bw nsim shuf = .ok (some c)) : P c := by
  unfold solve_packing at h
  dsimp only at h
  cases hrt : runTrials cl cw ch mw (expandItems data) shuf (trialSched nsim) none with
  | error e =>
    rw [hrt] at h
    exact absurd h (by simp [Except.map])
  | ok acc =>
    rw [hrt] at h
    cases acc with
    | none => exact absurd h (by simp [Except.map])
    | some bs =>
      have hc : c = bs.best := by
        simpa [Except.map] using h.symm
      subst hc
      exact runTrials_best P hP _ none (by simp) bs hrt

theorem solve_packing_box {cl cw ch : ℚ} {data : List ItemData} {mw : ℚ} {bw : Bool}
    {nsim : Nat} {shuf : Nat → List Item → List Item} {c : Container}
    (h : solve_packing cl cw ch data mw bw nsim shuf = .ok (some c)) :
    c.L = cl ∧ c.W = cw ∧ c.H = ch ∧ c.max_weight = mw :=
  solve_packing_best
    (fun c' => c'.L = cl ∧ c'.W = cw ∧ c'.H = ch ∧ c'.max_weight = mw)
    (fun s i ap => runTrial_box cl cw ch mw _ shuf s i ap) h

theorem expandItems_dims {data : List ItemData}
    (hd : ∀ d ∈ data, 0 < d.l ∧ 0 < d.w ∧ 0 < d.h) :
    ∀ p ∈ expandItems data, 0 < p.l ∧ 0 < p.w ∧ 0 < p.h := by
  intro p hp
  unfold expandItems at hp
  rw [List.mem_flatMap] at hp
  obtain ⟨d, hdm, hp⟩ := hp
  rw [List.mem_replicate] at hp
  obtain ⟨-, rfl⟩ := hp
  exact hd d hdm

/-! ## The claims -/

/-- **C1**: for every Container State returned by `solve_packing` (with a
permutation PRNG oracle and positive item extents, as the data model
requires), no two distinct placed items' axis-aligned 3D boxes — with
rotation-effective dimensions — overlap by more than `EPSILON` in all
three axes simultaneously. -/
theorem solve_packing_no_overlap (cl cw ch : ℚ) (data : List ItemData) (mw : ℚ)
    (bw : Bool) (nsim : Nat) (shuf : Nat → List Item → List Item) (c : Container)
    (hshuf : ∀ n l, (shuf n l).Perm l)
    (hd : ∀ d ∈ data, 0 < d.l ∧ 0 < d.w ∧ 0 < d.h)
    (h : solve_packing cl cw ch data mw bw nsim shuf = .ok (some c)) :
    c.items.Pairwise (fun p q => ¬ deepOverlap p q) := by
  have hI : Inv c :=
    solve_packing_best (fun c' => Inv c')
      (fun s i ap => runTrial_inv hshuf (expandItems_dims hd) s i ap) h
  exact hI.sep

/-- **C2**: for every Container State returned by `solve_packing` (with a
permutation PRNG oracle, positive item extents and a nonnegative
container width, as the data model requires), every placed item's box lies
within `[0, L] × [0, W] × [0, H]` up to `EPSILON`, and its `z` coordinate
is exactly `0`. -/
theorem solve_packing_in_bounds (cl cw ch : ℚ) (data : List ItemData) (mw : ℚ)
    (bw : Bool) (nsim : Nat) (shuf : Nat → List Item → List Item) (c : Container)
    (hshuf : ∀ n l, (shuf n l).Perm l)
    (hd : ∀ d ∈ data, 0 < d.l ∧ 0 < d.w ∧ 0 < d.h) (hw : 0 ≤ cw)
    (h : solve_packing cl cw ch data mw bw nsim shuf = .ok (some c)) :
    ∀ p ∈ c.items, p.z = 0 ∧
      -EPSILON ≤ p.x ∧ p.x + p.get_dimension.1 ≤ cl + EPSILON ∧
      -EPSILON ≤ p.y ∧ p.y + p.get_dimension.2.1 ≤ cw + EPSILON ∧
      -EPSILON ≤ p.z ∧ p.z + p.get_dimension.2.2 ≤ ch + EPSILON := by
  have hI : Inv c :=
    solve_packing_best (fun c' => Inv c')
      (fun s i ap => runTrial_inv hshuf (expandItems_dims hd) s i ap) h
  obtain ⟨hL, hW, hH, -⟩ := solve_packing_box h
  intro p hp
  have h1 := hI.zzero p hp
  have h2 := hI.xlb p hp
  have h3 := hI.xub p hp
  have h4 := hI.ymin p hp
  have h5 := hI.yub p hp
  have h6 := hI.hub p hp
  have heps : (0 : ℚ) ≤ EPSILON := by norm_num [EPSILON]
  rw [hL] at h3
  rw [hW] at h4 h5
  rw [hH] at h6
  have h4' : 0 ≤ p.y := le_trans (by simp [min_eq_left hw]) h4
  refine ⟨h1, h2, h3, by linarith, h5, by rw [h1]; linarith, by rw [h1]; linarith⟩

/-- **C3**: for every Container State returned by `solve_packing` with a
nonnegative weight capacity, the sum of the weights of its placed items is
at most the capacity `max_weight_kg`. -/
theorem solve_packing_weight_budget (cl cw ch : ℚ) (data : List ItemData) (mw : ℚ)
    (bw : Bool) (nsim : Nat) (shuf : Nat → List Item → List Item) (c : Container)
    (hmw : 0 ≤ mw)
    (h : solve_packing cl cw ch data mw bw nsim shuf = .ok (some c)) :
    (c.items.map Item.weight).sum ≤ mw := by
  have hW : WeightInv c :=
    solve_packing_best (fun c' => WeightInv c')
      (fun s i ap => runTrial_weight cl cw ch mw _ shuf s i ap) h
  obtain ⟨-, -, -, hmax⟩ := solve_packing_box h
  have hle := hW.2 (by rw [hmax]; exact hmw)
  rw [hW.1] at hle
  rw [hmax] at hle
  exact hle

/-- **C4**: for every Container State returned by `solve_packing` (with a
permutation PRNG oracle), the number of placed items plus the number of
unplaced items equals the total number of item instances submitted, i.e.
the sum of the `qty` fields of the input rows. -/
theorem solve_packing_conservation (cl cw ch : ℚ) (data : List ItemData) (mw : ℚ)
    (bw : Bool) (nsim : Nat) (shuf : Nat → List Item → List Item) (c : Container)
    (hshuf : ∀ n l, (shuf n l).Perm l)
    (h : solve_packing cl cw ch data mw bw nsim shuf = .ok (some c)) :
    c.items.length + c.unpacked_items.length = (data.map (fun d => d.qty)).sum := by
  have hperm : (coreList c).Perm ((expandItems data).map core) :=
    solve_packing_best (fun c' => (coreList c').Perm ((expandItems data).map core))
      (fun s i ap => runTrial_conserve hshuf s i ap) h
  have hlen := hperm.length_eq
  have h1 : (coreList c).length = c.items.length + c.unpacked_items.length := by
    simp [coreList]
  have h2 : ((expandItems data).map core).length = (data.map (fun d => d.qty)).sum := by
    rw [List.length_map]
    unfold expandItems
    rw [List.length_flatMap]
    simp only [Function.comp_def, List.length_replicate]
  rw [h1, h2] at hlen
  exact hlen

unseal Rat.add Rat.mul Rat.sub Rat.inv Rat.ofScientific in
/-- Witness for C1: a concrete call, with its hypotheses discharged. -/
theorem solve_packing_no_overlap_witness :
    ([(⟨"a", 2, 3, 4, 5, 0, 0, 0, 0⟩ : Item)]).Pairwise (fun p q => ¬ deepOverlap p q) :=
  solve_packing_no_overlap 10 10 10 [⟨"a", 2, 3, 4, 5, 1⟩] 20000 false 0 (fun _ l => l)
    ⟨10, 10, 10, 20000, 5, [⟨"a", 2, 3, 4, 5, 0, 0, 0, 0⟩], []⟩
    (fun n l => List.Perm.refl l) (by decide) (by decide)

unseal Rat.add Rat.mul Rat.sub Rat.inv Rat.ofScientific in
/-- Witness for C2: a concrete call, with its hypotheses discharged. -/
theorem solve_packing_in_bounds_witness :
    (⟨"a", 2, 3, 4, 5, 0, 0, 0, 0⟩ : Item).z = 0 ∧
    -EPSILON ≤ (⟨"a", 2, 3, 4, 5, 0, 0, 0, 0⟩ : Item).x ∧
    (⟨"a", 2, 3, 4, 5, 0, 0, 0, 0⟩ : Item).x +
      (⟨"a", 2, 3, 4, 5, 0, 0, 0, 0⟩ : Item).get_dimension.1 ≤ 10 + EPSILON ∧
    -EPSILON ≤ (⟨"a", 2, 3, 4, 5, 0, 0, 0, 0⟩ : Item).y ∧
    (⟨"a", 2, 3, 4, 5, 0, 0, 0, 0⟩ : Item).y +
      (⟨"a", 2, 3, 4, 5, 0, 0, 0, 0⟩ : Item).get_dimension.2.1 ≤ 10 + EPSILON ∧
    -EPSILON ≤ (⟨"a", 2, 3, 4, 5, 0, 0, 0, 0⟩ : Item).z ∧
    (⟨"a", 2, 3, 4, 5, 0, 0, 0, 0⟩ : Item).z +
      (⟨"a", 2, 3, 4, 5, 0, 0, 0, 0⟩ : Item).get_dimension.2.2 ≤ 10 + EPSILON :=
  solve_packing_in_bounds 10 10 10 [⟨"a", 2, 3, 4, 5, 1⟩] 20000 false 0 (fun _ l => l)
    ⟨10, 10, 10, 20000, 5, [⟨"a", 2, 3, 4, 5, 0, 0, 0, 0⟩], []⟩
    (fun n l => List.Perm.refl l) (by decide) (by norm_num) (by decide)
    ⟨"a", 2, 3, 4, 5, 0, 0, 0, 0⟩ (by decide)

unseal Rat.add Rat.mul Rat.sub Rat.inv Rat.ofScientific in
/-- Witness for C3: a concrete call, with its hypotheses discharged. -/
theorem solve_packing_weight_budget_witness :
    (([(⟨"a", 2, 3, 4, 5, 0, 0, 0, 0⟩ : Item)]).map Item.weight).sum ≤ 20000 :=
  solve_packing_weight_budget 10 10 10 [⟨"a", 2, 3, 4, 5, 1⟩] 20000 false 0 (fun _ l => l)
    ⟨10, 10, 10, 20000, 5, [⟨"a", 2, 3, 4, 5, 0, 0, 0, 0⟩], []⟩
    (by norm_num) (by decide)

unseal Rat.add Rat.mul Rat.sub Rat.inv Rat.ofScientific in
/-- Witness for C4: a concrete call, with its hypotheses discharged. -/
theorem solve_packing_conservation_witness :
    ([(⟨"a", 2, 3, 4, 5, 0, 0, 0, 0⟩ : Item)]).length + ([] : List Item).length =
      (([(⟨"a", 2, 3, 4, 5, 1⟩ : ItemData)]).map (fun d => d.qty)).sum :=
  solve_packing_conservation 10 10 10 [⟨"a", 2, 3, 4, 5, 1⟩] 20000 false 0 (fun _ l => l)
    ⟨10, 10, 10, 20000, 5, [⟨"a", 2, 3, 4, 5, 0, 0, 0, 0⟩], []⟩
    (fun n l => List.Perm.refl l) (by decide)

unseal Rat.add Rat.mul Rat.sub Rat.inv Rat.ofScientific in
/-- **C5**: the code contradicts the claim.  When no item can be placed —
here a container with zero dimensions, and separately an item larger than
the container in every orientation — every trial places zero weight, so
`calculate_balance_score` returns the bare `50.0` and the unpacking
`balance_diff, _ = ...` at line 320 raises a `TypeError` instead of
returning the all-unplaced state. -/
theorem solve_packing_unplaceable_raises :
    solve_packing 0 0 0 [⟨"it", 2, 3, 4, 5, 1⟩] 20000 false 0 (fun _ l => l) =
      .error () ∧
    solve_packing 100 100 100 [⟨"big", 200, 200, 200, 5, 1⟩] 20000 false 0
      (fun _ l => l) = .error () := by
  constructor
  · decide
  · decide

unseal Rat.add Rat.mul Rat.sub Rat.inv Rat.ofScientific in
/-- **C9**: the code contradicts the claim.  For a single item strictly
larger than the container in every axis (beyond `EPSILON`), no trial can
place it, the first trial's score unpacking raises a `TypeError`
(`calculate_balance_score` returns a bare float at zero weight), and
`solve_packing` does not return the claimed `packed_count = 0`,
`unpacked_count = 1` state.  (Moreover, an item larger by no more than
`EPSILON` in every axis is placed rather than rejected.) -/
theorem solve_packing_oversize_raises :
    solve_packing 100 100 100 [⟨"big", 102, 102, 102, 1, 1⟩] 20000 false 0
      (fun _ l => l) = .error () ∧
    (solve_packing 100 100 100 [⟨"big", 201/2, 201/2, 201/2, 1, 1⟩] 20000 false 0
      (fun _ l => l)).map (fun o => o.map (fun c => c.items.length)) =
      .ok (some 1) := by
  constructor
  · decide
  · decide

/-- **C10**: for every container with positive dimensions and an empty
placed-item list, `get_container_stats` returns a record — rather than a
division-by-zero failure — with `packed_count = 0`, `weight_total = 0`,
`volume_utilization = 0` and all three balance ratios exactly 50. -/
theorem get_container_stats_empty (cl cw ch mw w0 : ℚ) (unp : List Item)
    (hL : 0 < cl) (hW : 0 < cw) (hH : 0 < ch) :
    (get_container_stats ⟨cl, cw, ch, mw, w0, [], unp⟩).map
      (fun s => (s.packed_count, s.weight_total, s.volume_utilization,
        s.balance_ratio_len, s.balance_ratio_width, s.balance_ratio_height)) =
      some (0, 0, 0, 50, 50, 50) := by
  unfold get_container_stats
  dsimp only
  rw [if_neg (by positivity : ¬(cl * cw * ch = 0))]
  simp

unseal Rat.add Rat.mul Rat.sub Rat.inv Rat.ofScientific in
/-- Witness for C10: a concrete container, hypotheses discharged. -/
theorem get_container_stats_empty_witness :
    (get_container_stats ⟨2, 3, 4, 100, 0, [], []⟩).map
      (fun s => (s.packed_count, s.weight_total, s.volume_utilization,
        s.balance_ratio_len, s.balance_ratio_width, s.balance_ratio_height)) =
      some (0, 0, 0, 50, 50, 50) :=
  get_container_stats_empty 2 3 4 100 0 [] (by norm_num) (by norm_num) (by norm_num)

/-- **C6**: the Trial Scorer's pairwise comparison.  The balance
deviation handed to it is `|50 − longitudinal ratio|`, the 0.5 bonus is
awarded exactly to the scarcity and spot-centric strategies, and an
incoming trial replaces the stored best exactly when the spec's ordered
rule (`specWins`) says so: strictly more placed items; on a count tie,
volume greater by more than `1e-5`; on a volume tie within `1e-5`,
strictly smaller bonus-adjusted deviation. -/
theorem scorer_comparison (b : BestState) (t : Container) (bonus d r : ℚ)
    (hbs : calculate_balance_score t = Sum.inr (d, r)) :
    d = |50 - r| ∧
    stratBonus Strat.scarcity = 1 / 2 ∧ stratBonus Strat.spot = 1 / 2 ∧
    stratBonus Strat.monteCarlo = 0 ∧
    (compareTrial b t d bonus).best = if specWins b t (d - bonus) then t else b.best := by
  have hd : d = |50 - r| := by
    unfold calculate_balance_score at hbs
    split at hbs
    · exact absurd hbs (by simp)
    · simp only [Sum.inr.injEq, Prod.mk.injEq] at hbs
      rw [← hbs.1, ← hbs.2]
  refine ⟨hd, rfl, rfl, rfl, ?_⟩
  unfold compareTrial specWins
  dsimp only
  split
  case isTrue hgt =>
    rw [if_pos (Or.inl hgt)]
  case isFalse hgt =>
    split
    case isTrue heq =>
      split
      case isTrue hvol =>
        rw [if_pos (Or.inr (Or.inl ⟨heq, hvol⟩))]
      case isFalse hvol =>
        split
        case isTrue habs =>
          split
          case isTrue hbal =>
            rw [if_pos (Or.inr (Or.inr ⟨heq, habs, hbal⟩))]
          case isFalse hbal =>
            rw [if_neg]
            rintro (h | ⟨-, h⟩ | ⟨-, -, h⟩)
            · exact hgt h
            · exact hvol h
            · exact hbal h
        case isFalse habs =>
          rw [if_neg]
          rintro (h | ⟨-, h⟩ | ⟨-, h, -⟩)
          · exact hgt h
          · exact hvol h
          · exact habs h
    case isFalse heq =>
      rw [if_neg]
      rintro (h | ⟨h, -⟩ | ⟨h, -, -⟩)
      · exact hgt h
      · exact heq h
      · exact heq h

unseal Rat.add Rat.mul Rat.sub Rat.inv Rat.ofScientific in
/-- Witness for C6: a concrete comparison, hypothesis discharged. -/
theorem scorer_comparison_witness :
    (50 : ℚ) = |50 - 100| ∧
    stratBonus Strat.scarcity = 1 / 2 ∧ stratBonus Strat.spot = 1 / 2 ∧
    stratBonus Strat.monteCarlo = 0 ∧
    (compareTrial ⟨⟨1, 1, 1, 1, 0, [], []⟩, 0, 0, 100⟩
        ⟨10, 10, 10, 100, 1, [⟨"i", 2, 2, 2, 1, 0, 0, 0, 0⟩], []⟩ 50 (1 / 2)).best =
      if specWins ⟨⟨1, 1, 1, 1, 0, [], []⟩, 0, 0, 100⟩
          ⟨10, 10, 10, 100, 1, [⟨"i", 2, 2, 2, 1, 0, 0, 0, 0⟩], []⟩ (50 - 1 / 2) then
        ⟨10, 10, 10, 100, 1, [⟨"i", 2, 2, 2, 1, 0, 0, 0, 0⟩], []⟩
      else (⟨1, 1, 1, 1, 0, [], []⟩ : Container) :=
  scorer_comparison ⟨⟨1, 1, 1, 1, 0, [], []⟩, 0, 0, 100⟩
    ⟨10, 10, 10, 100, 1, [⟨"i", 2, 2, 2, 1, 0, 0, 0, 0⟩], []⟩ (1 / 2) 50 100 (by decide)

unseal Rat.add Rat.mul Rat.sub Rat.inv Rat.ofScientific in
/-- Counterexample to **C7** as stated: in a container of length 100, an
item spanning `[0, 60]` straddles the midpoint 50, so the claim's formula
counts it at half weight (ratio 25), but the code counts it at full weight
because its midpoint 30 is before 50 (ratio 50). -/
theorem balance_ratio_straddle_counterexample :
    calculate_balance_score
        ⟨100, 100, 100, 20000, 20,
          [⟨"A", 60, 10, 10, 10, 0, 0, 0, 0⟩, ⟨"B", 10, 10, 10, 10, 90, 0, 0, 0⟩], []⟩ =
      Sum.inr (0, 50) ∧
    straddleRatio
        ⟨100, 100, 100, 20000, 20,
          [⟨"A", 60, 10, 10, 10, 0, 0, 0, 0⟩, ⟨"B", 10, 10, 10, 10, 90, 0, 0, 0⟩], []⟩ =
      25 ∧
    (50 : ℚ) ≠ 25 := by
  refine ⟨by decide, by decide, by norm_num⟩

theorem nose_split (c : Container) : ∀ l : List Item,
    (l.map (fun item =>
      if item.x + item.get_dimension.1 / 2 < c.L / 2 then item.weight
      else if item.x + item.get_dimension.1 / 2 = c.L / 2 then item.weight * (1 / 2)
      else 0)).sum =
    ((l.filter (fun i => decide (midBefore c i))).map Item.weight).sum +
    ((l.filter (fun i => decide (midAt c i))).map Item.weight).sum / 2 := by
  intro l
  induction l with
  | nil => simp
  | cons a t ih =>
    simp only [List.map_cons, List.sum_cons, List.filter_cons]
    by_cases h1 : a.x + a.get_dimension.1 / 2 < c.L / 2
    · have h2 : ¬(a.x + a.get_dimension.1 / 2 = c.L / 2) := fun he => by
        rw [he] at h1
        exact lt_irrefl _ h1
      rw [if_pos h1, if_pos (decide_eq_true (show midBefore c a from h1)),
        if_neg (by simpa [midAt] using h2)]
      simp only [List.map_cons, List.sum_cons]
      rw [ih]
      ring
    · by_cases h2 : a.x + a.get_dimension.1 / 2 = c.L / 2
      · rw [if_neg h1, if_pos h2, if_neg (by simpa [midBefore] using h1),
          if_pos (decide_eq_true (show midAt c a from h2))]
        simp only [List.map_cons, List.sum_cons]
        rw [ih]
        ring
      · rw [if_neg h1, if_neg h2, if_neg (by simpa [midBefore] using h1),
          if_neg (by simpa [midAt] using h2)]
        rw [ih]
        ring

/-- **C7 (amended)**: for every Container State with nonzero recorded
weight, the balance ratio computed by the scorer equals the sum of the
weights of placed items whose x-midpoint lies strictly before the
container's length midpoint, plus half the weight of every item whose
x-midpoint equals that midpoint — items are classified by their midpoint,
not by whether their extent straddles it — divided by the recorded total
weight, times 100; and the returned deviation is `|50 − ratio|`. -/
theorem balance_ratio_midpoint (c : Container) (h : c.current_weight ≠ 0) :
    calculate_balance_score c =
      Sum.inr (|50 - midpointRatio c|, midpointRatio c) := by
  unfold calculate_balance_score
  rw [if_neg h]
  unfold midpointRatio
  dsimp only
  rw [nose_split c c.items]

unseal Rat.add Rat.mul Rat.sub Rat.inv Rat.ofScientific in
/-- Witness for the amended C7: a concrete container, hypothesis
discharged. -/
theorem balance_ratio_midpoint_witness :
    calculate_balance_score
        ⟨100, 100, 100, 20000, 20,
          [⟨"A", 60, 10, 10, 10, 0, 0, 0, 0⟩, ⟨"B", 10, 10, 10, 10, 90, 0, 0, 0⟩], []⟩ =
      Sum.inr (|50 - midpointRatio
        ⟨100, 100, 100, 20000, 20,
          [⟨"A", 60, 10, 10, 10, 0, 0, 0, 0⟩, ⟨"B", 10, 10, 10, 10, 90, 0, 0, 0⟩], []⟩|,
        midpointRatio
        ⟨100, 100, 100, 20000, 20,
          [⟨"A", 60, 10, 10, 10, 0, 0, 0, 0⟩, ⟨"B", 10, 10, 10, 10, 90, 0, 0, 0⟩], []⟩) :=
  balance_ratio_midpoint
    ⟨100, 100, 100, 20000, 20,
      [⟨"A", 60, 10, 10, 10, 0, 0, 0, 0⟩, ⟨"B", 10, 10, 10, 10, 90, 0, 0, 0⟩], []⟩
    (by norm_num)

/-! ## The scarcity round selection rule (C8) -/

theorem keyLe_refl (k : SortKey) : keyLe k k :=
  Or.inr ⟨rfl, Or.inr ⟨rfl, Or.inr ⟨rfl, le_refl _⟩⟩⟩

theorem entryRel_refl (e : ScoreEntry) : entryRel e e :=
  Or.inr ⟨rfl, Or.inr ⟨rfl, le_refl _⟩⟩

theorem anchors_sorted (c : Container) (item : Item) (s : ℚ) (e? : Option ℚ) (ap : Axis) :
    List.Sorted anchorRel (c.get_all_valid_anchors item s e? ap) := by
  unfold Container.get_all_valid_anchors
  exact List.sorted_insertionSort anchorRel _

theorem anchors_head_min {c : Container} {item : Item} {s : ℚ} {e? : Option ℚ} {ap : Axis}
    {k : SortKey} {a : Anchor} {g : ℚ}
    (h : (c.get_all_valid_anchors item s e? ap).head? = some (k, a, g)) :
    ∀ e' ∈ c.get_all_valid_anchors item s e? ap, keyLe k e'.1 := by
  have hs := anchors_sorted c item s e? ap
  intro e' he'
  cases hl : c.get_all_valid_anchors item s e? ap with
  | nil =>
    rw [hl] at he'
    exact absurd he' (List.not_mem_nil e')
  | cons hd tl =>
    rw [hl] at h he' hs
    simp only [List.head?_cons, Option.some.injEq] at h
    rcases List.mem_cons.mp he' with rfl | htl
    · rw [h]
      exact keyLe_refl _
    · have hrel := (List.sorted_cons.mp hs).1 e' htl
      rw [h] at hrel
      exact hrel

theorem bestMoveFor_total (c : Container) (item : Item) (ap : Axis) :
    (bestMoveFor c item ap).1 = totalSpots c item ap := rfl

theorem bestMoveFor_isSome {c : Container} {item : Item} {ap : Axis}
    (h : 0 < totalSpots c item ap) :
    ∃ r a, (bestMoveFor c item ap).2 = some (r, a) := by
  unfold totalSpots at h
  unfold bestMoveFor
  dsimp only
  cases h0 : (c.get_all_valid_anchors { item with rotation := 0 } 0 none ap).head? with
  | none =>
    cases h1 : (c.get_all_valid_anchors { item with rotation := 1 } 0 none ap).head? with
    | none =>
      exfalso
      rw [List.head?_eq_none_iff] at h0 h1
      rw [h0, h1] at h
      simp at h
    | some e1 => exact ⟨1, e1.2.1, rfl⟩
  | some e0 =>
    cases h1 : (c.get_all_valid_anchors { item with rotation := 1 } 0 none ap).head? with
    | none => exact ⟨0, e0.2.1, rfl⟩
    | some e1 =>
      by_cases hc : coordLt e1.2.1 e0.2.1
      · exact ⟨1, e1.2.1, by simp [hc]⟩
      · exact ⟨0, e0.2.1, by simp [hc]⟩

theorem scarcityScores_complete {c : Container} {pool : List Item} {ap : Axis} {j : Nat}
    {item' : Item} (hj : pool.get? j = some item')
    (hg : ¬(c.current_weight + item'.weight > c.max_weight))
    (hs : 0 < totalSpots c item' ap) :
    ∃ e' ∈ scarcityScores c pool ap, e'.idx = j ∧ e'.spots = totalSpots c item' ap ∧
      e'.negArea = -item'.base_area := by
  obtain ⟨r, a, hbm2⟩ := bestMoveFor_isSome hs
  have hbmfull : bestMoveFor c item' ap = (totalSpots c item' ap, some (r, a)) := by
    rw [← bestMoveFor_total c item' ap]
    exact Prod.ext rfl hbm2
  refine ⟨⟨totalSpots c item' ap, -item'.base_area, j, r, a.1, a.2.1, a.2.2⟩, ?_, rfl, rfl, rfl⟩
  refine List.mem_filterMap.mpr ⟨(j, item'), mem_enumerate.mpr hj, ?_⟩
  dsimp only
  rw [if_neg hg, hbmfull]
  dsimp only
  rw [if_pos hs]

/-- **C8 (amended)**: in every round of the Global Scarcity Fit strategy,
the item placed next is a still-unplaced, weight-eligible item with at
least one valid anchor whose key `(total valid anchors over both
rotations, -footprint area, pool index)` is lexicographically least —
fewest anchors first, ties by largest footprint, then smallest index.  It
is placed at the chosen rotation's best-ranked anchor (the head of that
rotation's ranked anchor list, which is minimal in the anchor-search
ordering); between the two rotations' best anchors the engine chooses by
strict lexicographic comparison of the raw `(x, y, z)` coordinates,
keeping rotation 0 on ties — not by the anchor-search ordering itself. -/
theorem scarcity_round_selection (c : Container) (pool : List Item) (ap : Axis)
    (e : ScoreEntry) (rest : List ScoreEntry)
    (h : (scarcityScores c pool ap).insertionSort entryRel = e :: rest) :
    ∃ item, pool.get? e.idx = some item ∧
      ¬(c.current_weight + item.weight > c.max_weight) ∧
      e.spots = totalSpots c item ap ∧ 0 < e.spots ∧
      e.negArea = -item.base_area ∧
      (∀ j item', pool.get? j = some item' →
        ¬(c.current_weight + item'.weight > c.max_weight) →
        0 < totalSpots c item' ap →
        scarcityKeyLe (scarcityKey e.spots e.negArea e.idx)
          (scarcityKey (totalSpots c item' ap) (-item'.base_area) j)) ∧
      ((e.rot = 0 ∧
        (∃ k g, (c.get_all_valid_anchors { item with rotation := 0 } 0 none ap).head? =
            some (k, (e.ax, e.ay, e.az), g) ∧
          ∀ e' ∈ c.get_all_valid_anchors { item with rotation := 0 } 0 none ap,
            keyLe k e'.1) ∧
        (∀ e1 ∈ (c.get_all_valid_anchors { item with rotation := 1 } 0 none ap).head?,
          ¬ coordLt e1.2.1 (e.ax, e.ay, e.az))) ∨
       (e.rot = 1 ∧
        (∃ k g, (c.get_all_valid_anchors { item with rotation := 1 } 0 none ap).head? =
            some (k, (e.ax, e.ay, e.az), g) ∧
          ∀ e' ∈ c.get_all_valid_anchors { item with rotation := 1 } 0 none ap,
            keyLe k e'.1) ∧
        ((c.get_all_valid_anchors { item with rotation := 0 } 0 none ap).head? = none ∨
         ∃ e0 ∈ (c.get_all_valid_anchors { item with rotation := 0 } 0 none ap).head?,
           coordLt (e.ax, e.ay, e.az) e0.2.1))) := by
  have hmem : e ∈ scarcityScores c pool ap := by
    have hm : e ∈ (scarcityScores c pool ap).insertionSort entryRel := by
      rw [h]
      exact List.mem_cons_self _ _
    rwa [List.mem_insertionSort] at hm
  obtain ⟨item, hget, hw, hna, hbm, hpos⟩ := scarcityScores_spec hmem
  have hspots : e.spots = totalSpots c item ap := by
    rw [← bestMoveFor_total c item ap, hbm]
  refine ⟨item, hget, hw, hspots, hpos, hna, ?_, ?_⟩
  · -- minimality over all eligible candidates, via sortedness of the round's list
    intro j item' hj hg hs
    obtain ⟨e', he'mem, hidx, hsp, hna'⟩ := scarcityScores_complete hj hg hs
    have hrel : entryRel e e' := by
      have hsorted : List.Sorted entryRel ((scarcityScores c pool ap).insertionSort entryRel) :=
        List.sorted_insertionSort entryRel _
      rw [h] at hsorted
      have he'sorted : e' ∈ e :: rest := by
        rw [← h, List.mem_insertionSort]
        exact he'mem
      rcases List.mem_cons.mp he'sorted with rfl | htl
      · exact entryRel_refl _
      · exact (List.sorted_cons.mp hsorted).1 e' htl
    have : scarcityKeyLe (e.spots, e.negArea, e.idx) (e'.spots, e'.negArea, e'.idx) := hrel
    rw [hidx, hsp, hna'] at this
    exact this
  · -- the committed move: per-rotation ranked head, cross-rotation by raw coordinates
    unfold bestMoveFor at hbm
    dsimp only at hbm
    rw [Prod.mk.injEq] at hbm
    obtain ⟨-, hbm⟩ := hbm
    cases h0 : (c.get_all_valid_anchors { item with rotation := 0 } 0 none ap).head? with
    | none =>
      cases h1 : (c.get_all_valid_anchors { item with rotation := 1 } 0 none ap).head? with
      | none =>
        rw [h0, h1] at hbm
        exact absurd hbm (by simp)
      | some e1 =>
        rw [h0, h1] at hbm
        simp only [Option.some.injEq, Prod.mk.injEq] at hbm
        obtain ⟨hrot, hco⟩ := hbm
        have heq1 : (some e1 : Option AnchorEntry) =
            some (e1.1, (e.ax, e.ay, e.az), e1.2.2) := by
          rw [← hco]
        exact Or.inr ⟨hrot.symm,
          ⟨e1.1, e1.2.2, heq1, anchors_head_min (h1.trans heq1)⟩, Or.inl rfl⟩
    | some e0 =>
      cases h1 : (c.get_all_valid_anchors { item with rotation := 1 } 0 none ap).head? with
      | none =>
        rw [h0, h1] at hbm
        simp only [Option.some.injEq, Prod.mk.injEq] at hbm
        obtain ⟨hrot, hco⟩ := hbm
        have heq0 : (some e0 : Option AnchorEntry) =
            some (e0.1, (e.ax, e.ay, e.az), e0.2.2) := by
          rw [← hco]
        refine Or.inl ⟨hrot.symm,
          ⟨e0.1, e0.2.2, heq0, anchors_head_min (h0.trans heq0)⟩, ?_⟩
        intro e1' he1'
        exact absurd he1' (by simp)
      | some e1 =>
        rw [h0, h1] at hbm
        dsimp only at hbm
        split at hbm
        case isTrue hc =>
          simp only [Option.some.injEq, Prod.mk.injEq] at hbm
          obtain ⟨hrot, hco⟩ := hbm
          have heq1 : (some e1 : Option AnchorEntry) =
              some (e1.1, (e.ax, e.ay, e.az), e1.2.2) := by
            rw [← hco]
          exact Or.inr ⟨hrot.symm,
            ⟨e1.1, e1.2.2, heq1, anchors_head_min (h1.trans heq1)⟩,
            Or.inr ⟨e0, rfl, by rw [← hco]; exact hc⟩⟩
        case isFalse hc =>
          simp only [Option.some.injEq, Prod.mk.injEq] at hbm
          obtain ⟨hrot, hco⟩ := hbm
          have heq0 : (some e0 : Option AnchorEntry) =
              some (e0.1, (e.ax, e.ay, e.az), e0.2.2) := by
            rw [← hco]
          refine Or.inl ⟨hrot.symm,
            ⟨e0.1, e0.2.2, heq0, anchors_head_min (h0.trans heq0)⟩, ?_⟩
          intro e1' he1'
          simp only [Option.mem_def, Option.some.injEq] at he1'
          rw [← he1', ← hco]
          exact hc

unseal Rat.add Rat.mul Rat.sub Rat.inv Rat.ofScientific in
/-- Counterexample to **C8** as stated: with axis priority `'y'`, after
the first scarcity round places the 8×8×5 blocker at the origin, the
second round places the 2×5×5 item with rotation 1 at `(0, 8, 0)` —
because the raw coordinate tuple `(0, 8, 0)` is lexicographically below
rotation 0's `(8, 0, 0)` — even though the anchor-search ordering ranks
rotation 0's anchor `(8, 0, 0)` (key `(z, y, x, gap) = (0, 0, 8, 5)`)
strictly better than the chosen one (key `(0, 8, 0, 5)`).  The item is
not placed at its best-ranked anchor as the claim requires. -/
theorem scarcity_round_counterexample :
    ((scarcityScores ⟨10, 10, 10, 20000, 0, [], []⟩
        [⟨"B", 8, 8, 5, 1, 0, 0, 0, 0⟩, ⟨"C", 2, 5, 5, 1, 0, 0, 0, 0⟩]
        .y).insertionSort entryRel).head? = some ⟨2, -64, 0, 0, 0, 0, 0⟩ ∧
    (⟨10, 10, 10, 20000, 0, [], []⟩ : Container).place
        ⟨"B", 8, 8, 5, 1, 0, 0, 0, 0⟩ 0 (0, 0, 0) =
      ⟨10, 10, 10, 20000, 1, [⟨"B", 8, 8, 5, 1, 0, 0, 0, 0⟩], []⟩ ∧
    ((scarcityScores ⟨10, 10, 10, 20000, 1, [⟨"B", 8, 8, 5, 1, 0, 0, 0, 0⟩], []⟩
        [⟨"C", 2, 5, 5, 1, 0, 0, 0, 0⟩] .y).insertionSort entryRel).head? =
      some ⟨2, -10, 0, 1, 0, 8, 0⟩ ∧
    Container.get_all_valid_anchors
        ⟨10, 10, 10, 20000, 1, [⟨"B", 8, 8, 5, 1, 0, 0, 0, 0⟩], []⟩
        ⟨"C", 2, 5, 5, 1, 0, 0, 0, 1⟩ 0 none .y = [((0, 8, 0, 5), (0, 8, 0), 5)] ∧
    Container.get_all_valid_anchors
        ⟨10, 10, 10, 20000, 1, [⟨"B", 8, 8, 5, 1, 0, 0, 0, 0⟩], []⟩
        ⟨"C", 2, 5, 5, 1, 0, 0, 0, 0⟩ 0 none .y = [((0, 0, 8, 5), (8, 0, 0), 5)] ∧
    keyLe (0, 0, 8, 5) (0, 8, 0, 5) ∧ ¬ keyLe (0, 8, 0, 5) (0, 0, 8, 5) ∧
    ((0 : ℚ), (8 : ℚ), (0 : ℚ)) ≠ ((8 : ℚ), (0 : ℚ), (0 : ℚ)) := by
  exact ⟨by decide, by decide, by decide, by decide, by decide, by decide, by decide,
    by decide⟩

unseal Rat.add Rat.mul Rat.sub Rat.inv Rat.ofScientific in
/-- Witness for the amended C8: one concrete scarcity round, hypothesis
discharged. -/
theorem scarcity_round_selection_witness :
    ∃ item, ([(⟨"a", 2, 3, 4, 5, 0, 0, 0, 0⟩ : Item)]).get? 0 = some item ∧
      ¬((⟨10, 10, 10, 20000, 0, [], []⟩ : Container).current_weight + item.weight >
          (⟨10, 10, 10, 20000, 0, [], []⟩ : Container).max_weight) ∧
      (2 : Nat) = totalSpots ⟨10, 10, 10, 20000, 0, [], []⟩ item .x ∧
      (0 : Nat) < 2 ∧
      (-6 : ℚ) = -item.base_area ∧
      (∀ j item', ([(⟨"a", 2, 3, 4, 5, 0, 0, 0, 0⟩ : Item)]).get? j = some item' →
        ¬((⟨10, 10, 10, 20000, 0, [], []⟩ : Container).current_weight + item'.weight >
            (⟨10, 10, 10, 20000, 0, [], []⟩ : Container).max_weight) →
        0 < totalSpots ⟨10, 10, 10, 20000, 0, [], []⟩ item' .x →
        scarcityKeyLe (scarcityKey 2 (-6) 0)
          (scarcityKey (totalSpots ⟨10, 10, 10, 20000, 0, [], []⟩ item' .x)
            (-item'.base_area) j)) ∧
      (((0 : Nat) = 0 ∧
        (∃ k g, (Container.get_all_valid_anchors ⟨10, 10, 10, 20000, 0, [], []⟩
            { item with rotation := 0 } 0 none .x).head? =
            some (k, ((0 : ℚ), (0 : ℚ), (0 : ℚ)), g) ∧
          ∀ e' ∈ Container.get_all_valid_anchors ⟨10, 10, 10, 20000, 0, [], []⟩
              { item with rotation := 0 } 0 none .x, keyLe k e'.1) ∧
        (∀ e1 ∈ (Container.get_all_valid_anchors ⟨10, 10, 10, 20000, 0, [], []⟩
            { item with rotation := 1 } 0 none .x).head?,
          ¬ coordLt e1.2.1 ((0 : ℚ), (0 : ℚ), (0 : ℚ)))) ∨
       ((0 : Nat) = 1 ∧
        (∃ k g, (Container.get_all_valid_anchors ⟨10, 10, 10, 20000, 0, [], []⟩
            { item with rotation := 1 } 0 none .x).head? =
            some (k, ((0 : ℚ), (0 : ℚ), (0 : ℚ)), g) ∧
          ∀ e' ∈ Container.get_all_valid_anchors ⟨10, 10, 10, 20000, 0, [], []⟩
              { item with rotation := 1 } 0 none .x, keyLe k e'.1) ∧
        ((Container.get_all_valid_anchors ⟨10, 10, 10, 20000, 0, [], []⟩
            { item with rotation := 0 } 0 none .x).head? = none ∨
         ∃ e0 ∈ (Container.get_all_valid_anchors ⟨10, 10, 10, 20000, 0, [], []⟩
             { item with rotation := 0 } 0 none .x).head?,
           coordLt ((0 : ℚ), (0 : ℚ), (0 : ℚ)) e0.2.1))) :=
  scarcity_round_selection ⟨10, 10, 10, 20000, 0, [], []⟩
    [⟨"a", 2, 3, 4, 5, 0, 0, 0, 0⟩] .x ⟨2, -6, 0, 0, 0, 0, 0⟩ [] (by decide)

end Packing
